import Mathlib

/-!
Shallow embedding of the SWIG typemap engine (Source/Swig/typemap.c).

The typemap store is a stack of scopes.  Each scope maps a type string to a
type node; a type node holds per-method rule entries and a nested map from
parameter names to name nodes, which hold per-method entries of their own.
The DOH hash tables of the C code are modelled as association lists keyed by
strings; the DOH attribute bags of rule entries are modelled as records with
optional fields.  The external SwigType string library is not part of the
source; the operations the engine needs from it are collected in a TypeUtils
record, and a concrete instance modelled from the specification text is given
below (modelUtils).
-/

set_option maxRecDepth 8000

/-- A parameter node: an attribute bag with a type, an optional name, an
optional wrapper-local name and an optional value.  Parameter lists are
modelled as Lean lists (the C code links parameters with nextSibling). -/
structure Parm where
  type : String
  name : Option String := none
  lname : Option String := none
  value : Option String := none
deriving DecidableEq, Repr

/-- A typemap rule entry: the attributes written by
Swig_typemap_register_multi (code, type, pname, typemap, locals, kwargs).
An entry hash freshly created by NewHash() has none of them. -/
structure Entry where
  code : Option String := none
  type : Option String := none
  pname : Option String := none
  typemap : Option String := none
  locals : List Parm := []
  kwargs : List Parm := []
deriving DecidableEq, Repr

/-- The empty rule entry (a fresh NewHash()). -/
def Entry.empty : Entry := {}

/-- Getattr on an association list. -/
def aget {α : Type} : List (String × α) → String → Option α
  | [], _ => none
  | (k, v) :: t, key => if k = key then some v else aget t key

/-- Setattr on an association list: replace in place, or append a new pair. -/
def aset {α : Type} : List (String × α) → String → α → List (String × α)
  | [], key, v => [(key, v)]
  | (k, w) :: t, key, v => if k = key then (k, v) :: t else (k, w) :: aset t key v

/-- A name node: per-method rule entries stored under a parameter name. -/
structure NmNode where
  methods : List (String × Entry) := []
deriving DecidableEq, Repr

/-- A type node: per-method rule entries stored directly under the type,
plus the nested per-name map. -/
structure TypeNode where
  methods : List (String × Entry) := []
  names : List (String × NmNode) := []
deriving DecidableEq, Repr

/-- One typemap scope: a map from type strings to type nodes.  The percent
except facility stores its handler string in the same hash under the
distinguished key *except*, modelled as the separate field exceptStr. -/
structure Scope where
  types : List (String × TypeNode) := []
  exceptStr : Option String := none
deriving DecidableEq, Repr

/-- MAX_SCOPE from typemap.c: the size of the static typemaps[] array. -/
def MAX_SCOPE : Nat := 32

/-- The global state of typemap.c: the typemaps[] array of scope pointers
(a NULL slot is none) and the scope counter tm_scope. -/
structure Store where
  typemaps : List (Option Scope)
  tm_scope : Nat
deriving DecidableEq, Repr

/-- typemaps[i]. -/
def scopeAt (s : Store) (i : Nat) : Option Scope := s.typemaps.getD i none

/-- Write typemaps[i].  Writing past the end of the array models the
out-of-bounds store of the C code as a lost write. -/
def setScope (s : Store) (i : Nat) (sc : Scope) : Store :=
  { s with typemaps := s.typemaps.set i (some sc) }

/-- Swig_typemap_init: null out all MAX_SCOPE slots, create scope 0, and
reset tm_scope to 0. -/
def Swig_typemap_init : Store :=
  { typemaps := some {} :: List.replicate (MAX_SCOPE - 1) none, tm_scope := 0 }

/-- Swig_typemap_new_scope: increment tm_scope and store a fresh hash there.
The C code performs no bound check against MAX_SCOPE. -/
def Swig_typemap_new_scope (s : Store) : Store :=
  setScope { s with tm_scope := s.tm_scope + 1 } (s.tm_scope + 1) {}

/-- Swig_typemap_pop_scope: if tm_scope is positive, return typemaps[tm_scope]
and decrement tm_scope (the slot itself is not cleared); otherwise return
NULL and leave everything unchanged. -/
def Swig_typemap_pop_scope (s : Store) : Option Scope × Store :=
  if 0 < s.tm_scope then (scopeAt s s.tm_scope, { s with tm_scope := s.tm_scope - 1 })
  else (none, s)

/-- tmop_name: the interning of "tmap:" ++ op (the memo table has no
functional effect). -/
def tmop_name (op : String) : String := "tmap:" ++ op

/-- Rendering of an optional name inside a signature-suffixed method key,
as NewStringf formats a missing (NULL) name field. -/
def nstr : Option String → String
  | some s => s
  | none => ""

/-- Drop characters up to and including the closing bracket of an array
dimension. -/
def dropDim : List Char → List Char
  | [] => []
  | c :: r => if c = ']' then r else dropDim r

/-- Replace the content of the i-th bracketed dimension group by v. -/
def setdimL (v : List Char) : List Char → Nat → List Char
  | [], _ => []
  | c :: r, i =>
    if c = '[' then
      match i with
      | 0 => '[' :: (v ++ ']' :: dropDim r)
      | i' + 1 => c :: setdimL v r i'
    else c :: setdimL v r i

/-- Read the content of the i-th bracketed dimension group. -/
def getdimL : List Char → Nat → List Char
  | [], _ => []
  | c :: r, i =>
    if c = '[' then
      match i with
      | 0 => r.takeWhile (fun d => d ≠ ']')
      | i' + 1 => getdimL r i'
    else getdimL r i

/-- Strip repeated pointer markers from the front of a type string. -/
def stripPtrs : List Char → List Char
  | 'p' :: '.' :: r => stripPtrs r
  | l => l

/-- Is the first list a prefix of the second? -/
def isPre : List Char → List Char → Bool
  | [], _ => true
  | _ :: _, [] => false
  | a :: as, b :: bs => a = b && isPre as bs

/-- Mangling keeps alphanumeric characters and turns everything else into an
underscore. -/
def sanitizeChar (c : Char) : Char := if c.isAlphanum then c else '_'

/-- The interface the typemap engine uses from the external SwigType string
library.  Type strings are opaque; equality is textual. -/
structure TypeUtils where
  isarray : String → Bool
  array_ndim : String → Nat
  array_getdim : String → Nat → String
  array_setdim : String → Nat → String → String
  strip_qualifiers : String → String
  typedef_resolve : String → Option String
  defaultType : String → Option String
  str : String → Option String → String
  ltype : String → String
  ispointer : String → Bool
  del_pointer : String → String
  add_pointer : String → String
  manglestr : String → String
  base : String → String

/-- Modelled from the spec: a concrete instance of the external SwigType
library (typemap.c only declares these functions; their code is outside this
repository).  Arrays are bracketed dimension groups appended to the element
type, pointers carry a leading p. marker, mangling replaces non-alphanumeric
characters by underscores behind a leading underscore, qualifier stripping and
typedef resolution act on an empty typedef table (no qualifier, no typedef),
and no primitive default mapping is installed. -/
def modelUtils : TypeUtils where
  isarray t := t.data.any (fun c => c = '[')
  array_ndim t := (t.data.filter (fun c => c = '[')).length
  array_getdim t i := ⟨getdimL t.data i⟩
  array_setdim t i v := ⟨setdimL v.data t.data i⟩
  strip_qualifiers t := t
  typedef_resolve _ := none
  defaultType _ := none
  str t n :=
    match n with
    | some nm => if nm = "" then t else t ++ " " ++ nm
    | none => t
  ltype t := t
  ispointer t := isPre "p.".data t.data
  del_pointer t := t.drop 2
  add_pointer t := "p." ++ t
  manglestr t := ⟨'_' :: t.data.map sanitizeChar⟩
  base t := ⟨(stripPtrs t.data).takeWhile (fun c => c ≠ '[')⟩

/-- The fields Swig_typemap_register_multi writes into the terminal entry.
A pre-existing entry under the same key keeps its other attributes; the
pname attribute is only written when the parameter has a name. -/
def fillEntry (u : TypeUtils) (op T : String) (pname : Option String)
    (code : String) (locals kwargs : List Parm) (e : Entry) : Entry :=
  { e with
    code := some code
    type := some T
    typemap := some ("typemap(" ++ op ++ ") " ++ u.str T pname)
    pname :=
      match pname with
      | some nm => some nm
      | none => e.pname
    locals := locals
    kwargs := kwargs }

/-- Locate or create the node chain for (type, name) in a scope and update
the entry stored there under the given method key.  This is the
Getattr / NewHash / Setattr dance of Swig_typemap_register_multi. -/
def updScope (sc : Scope) (T : String) (name : Option String) (key : String)
    (f : Entry → Entry) : Scope :=
  let tn := (aget sc.types T).getD {}
  let tn' :=
    match name with
    | some nm =>
      let nn := (aget tn.names nm).getD {}
      let nn' : NmNode := { methods := aset nn.methods key (f ((aget nn.methods key).getD {})) }
      { tn with names := aset tn.names nm nn' }
    | none => { tn with methods := aset tn.methods key (f ((aget tn.methods key).getD {})) }
  { sc with types := aset sc.types T tn' }

/-- Read the entry stored in a scope under (type, optional name, method key),
following the same node chain the registrar builds. -/
def readScope (sc : Scope) (T : String) (n : Option String) (k : String) : Option Entry :=
  (aget sc.types T).bind fun tn =>
    match n with
    | some nm => (aget tn.names nm).bind fun nn => aget nn.methods k
    | none => aget tn.methods k

/-- Apply updScope to the top scope of the store. -/
def updEntryTop (s : Store) (T : String) (name : Option String) (key : String)
    (f : Entry → Entry) : Store :=
  setScope s s.tm_scope (updScope ((scopeAt s s.tm_scope).getD {}) T name key f)

/-- Swig_typemap_register_multi.  The first parameter gets a node (and an
entry shell) under the plain method key; with further parameters the method
key is extended by the signature suffix of the first parameter and the rule
is re-registered on the rest, so only the last parameter's entry carries the
code. -/
def Swig_typemap_register_multi (u : TypeUtils) :
    String → List Parm → String → List Parm → List Parm → Store → Store
  | _, [], _, _, _, s => s
  | op, p :: np, code, locals, kwargs, s =>
    match np with
    | [] => updEntryTop s p.type p.name (tmop_name op)
        (fillEntry u op p.type p.name code locals kwargs)
    | _ :: _ =>
      let s1 := updEntryTop s p.type p.name (tmop_name op) (fun e => e)
      Swig_typemap_register_multi u (op ++ "-" ++ p.type ++ "+" ++ nstr p.name ++ ":")
        np code locals kwargs s1

/-- Swig_typemap_get: fetch the per-method map of the (type, name) node in
the given scope; with no name (or an empty one) the type node's own method
map is returned.  Out-of-range scope indices yield NULL. -/
def Swig_typemap_get (s : Store) (type : String) (name : Option String) (scope : Nat) :
    Option (List (String × Entry)) :=
  if scope > s.tm_scope then none
  else
    match (scopeAt s scope).bind (fun sc => aget sc.types type) with
    | none => none
    | some tn =>
      match name with
      | some nm =>
        if nm = "" then some tn.methods
        else (aget tn.names nm).map (fun nn => nn.methods)
      | none => some tn.methods

/-- The inner loop of Swig_typemap_copy_multi: walk the source parameters in
one scope, extending the method key by each parameter's signature, and return
the terminal entry if every step matches. -/
def copyWalk (s : Store) (ts : Nat) : List Parm → String → Option Entry
  | [], _ => none
  | p :: rest, tmops =>
    match Swig_typemap_get s p.type p.name ts with
    | none => none
    | some methods =>
      match aget methods tmops with
      | none => none
      | some e =>
        match rest with
        | [] => some e
        | _ :: _ => copyWalk s ts rest (tmops ++ "-" ++ p.type ++ "+" ++ nstr p.name ++ ":")

/-- One scope iteration of Swig_typemap_copy_multi: on a full source match,
re-register the entry on the destination parameters. -/
def copyTry (u : TypeUtils) (op : String) (srcparms parms : List Parm) (s : Store)
    (ts : Nat) : Option (Int × Store) :=
  match copyWalk s ts srcparms (tmop_name op) with
  | some e =>
    some (0, Swig_typemap_register_multi u op parms (e.code.getD "") e.locals e.kwargs s)
  | none => none

/-- The scope loop of Swig_typemap_copy_multi. -/
def copyScopes (u : TypeUtils) (op : String) (srcparms parms : List Parm) (s : Store) :
    Nat → Int × Store
  | 0 => (copyTry u op srcparms parms s 0).getD (-1, s)
  | ts' + 1 =>
    match copyTry u op srcparms parms s (ts' + 1) with
    | some r => r
    | none => copyScopes u op srcparms parms s ts'

/-- Swig_typemap_copy_multi: the percent apply directive.  Differing
parameter counts fail immediately with -1 and no side effect. -/
def Swig_typemap_copy_multi (u : TypeUtils) (op : String) (srcparms parms : List Parm)
    (s : Store) : Int × Store :=
  if parms.length ≠ srcparms.length then (-1, s)
  else copyScopes u op srcparms parms s s.tm_scope

/-- strip_arrays (typemap.c): copy the type and replace every array
dimension by the literal ANY. -/
def strip_arrays (u : TypeUtils) (t : String) : String :=
  (List.range (u.array_ndim t)).foldl (fun acc i => u.array_setdim acc i "ANY") t

/-- The name-node probe of Swig_typemap_search: typemaps[ts][ctype][cname][tmop]. -/
def probeName (sc : Scope) (t : String) (cname : Option String) (tmop : String) : Option Entry :=
  (aget sc.types t).bind fun tn =>
    cname.bind fun nm => (aget tn.names nm).bind fun nn => aget nn.methods tmop

/-- The type-node probe of Swig_typemap_search: typemaps[ts][ctype][tmop]. -/
def probeType (sc : Scope) (t : String) (tmop : String) : Option Entry :=
  (aget sc.types t).bind fun tn => aget tn.methods tmop

/-- One probe step of the search: a probe result with a code attribute wins
immediately; a probe result without one becomes the new backup. -/
def step (r : Option Entry) (backup : Option Entry) : Entry ⊕ Option Entry :=
  match r with
  | some e => if e.code.isSome then Sum.inl e else Sum.inr (some e)
  | none => Sum.inr backup

/-- The four probes of one iteration of the inner search loop: name node and
type node for the current type, then (for arrays) for the
dimension-stripped type. -/
def scopeProbes (sc : Scope) (tmop : String) (cname : Option String) (isarr : Bool)
    (noarrays : String) (ctype : String) (backup : Option Entry) : Entry ⊕ Option Entry :=
  match step (probeName sc ctype cname tmop) backup with
  | Sum.inl e => Sum.inl e
  | Sum.inr b1 =>
    match step (probeType sc ctype tmop) b1 with
    | Sum.inl e => Sum.inl e
    | Sum.inr b2 =>
      if isarr then
        match step (probeName sc noarrays cname tmop) b2 with
        | Sum.inl e => Sum.inl e
        | Sum.inr b3 =>
          match step (probeType sc noarrays tmop) b3 with
          | Sum.inl e => Sum.inl e
          | Sum.inr b4 => Sum.inr b4
      else Sum.inr b2

/-- Result of the inner loop over one scope: a code-bearing match, or the
loop ran out of types with the recorded backup. -/
inductive ScopeRes where
  | found : Entry → ScopeRes
  | cont : Option Entry → ScopeRes
deriving DecidableEq, Repr

/-- The inner while (ctype) loop of Swig_typemap_search for a single scope:
probe the current type, then strip qualifiers once (re-probing if that
changed the string), then resolve one typedef level and loop.  The loop of
the C code can run forever on a cyclic typedef chain; fuel bounds the number
of loop backedges, and running out of it yields none. -/
def scopeLoop (u : TypeUtils) (sc : Scope) (tmop : String) (cname : Option String)
    (isarr : Bool) (noarrays : String) :
    Nat → String → Bool → Option Entry → Option ScopeRes
  | fuel, ctype, unstr, backup =>
    match scopeProbes sc tmop cname isarr noarrays ctype backup with
    | Sum.inl e => some (ScopeRes.found e)
    | Sum.inr b =>
      if unstr then
        match u.typedef_resolve ctype with
        | none => some (ScopeRes.cont b)
        | some c2 =>
          match fuel with
          | 0 => none
          | f + 1 => scopeLoop u sc tmop cname isarr noarrays f c2 false b
      else
        let c1 := u.strip_qualifiers ctype
        if c1 = ctype then
          match u.typedef_resolve ctype with
          | none => some (ScopeRes.cont b)
          | some c2 =>
            match fuel with
            | 0 => none
            | f + 1 => scopeLoop u sc tmop cname isarr noarrays f c2 false b
        else
          match fuel with
          | 0 => none
          | f + 1 => scopeLoop u sc tmop cname isarr noarrays f c1 true b

/-- The default-mapping probes at the end of each scope of
Swig_typemap_search: an entry found under the primitive default type is
returned even without a code attribute. -/
def defaultProbe (sc : Scope) (tmop : String) (cname : Option String) :
    Option String → Option Entry
  | none => none
  | some pt =>
    match probeName sc pt cname tmop with
    | some e => some e
    | none => probeType sc pt tmop

/-- The outer scope loop of Swig_typemap_search, from ts down to scope 0;
after the last scope the backup (a match without code) is returned. -/
def searchScopes (u : TypeUtils) (fuel : Nat) (s : Store) (tmop : String)
    (cname : Option String) (isarr : Bool) (noarrays : String)
    (primitive : Option String) (type : String) :
    Nat → Option Entry → Option (Option Entry)
  | ts, backup =>
    let sc := (scopeAt s ts).getD {}
    match scopeLoop u sc tmop cname isarr noarrays fuel type false backup with
    | none => none
    | some (ScopeRes.found e) => some (some e)
    | some (ScopeRes.cont b) =>
      match defaultProbe sc tmop cname primitive with
      | some e => some (some e)
      | none =>
        match ts with
        | 0 => some b
        | ts' + 1 => searchScopes u fuel s tmop cname isarr noarrays primitive type ts' b

/-- The cname of Swig_typemap_search: the query name, unless it is absent or
empty. -/
def cnameOf : Option String → Option String
  | some nm => if nm = "" then none else some nm
  | none => none

/-- Swig_typemap_search: find the most specific rule with a code attribute
for (op, type, name), walking the scopes from the top down.  The outer none
means the qualifier-strip / typedef-resolve loop exceeded its fuel (the C
code would not terminate); the inner option is the NULL or entry the C
function returns. -/
def Swig_typemap_search (u : TypeUtils) (fuel : Nat) (s : Store) (op : String)
    (type : String) (name : Option String) : Option (Option Entry) :=
  searchScopes u fuel s (tmop_name op) (cnameOf name) (u.isarray type) (strip_arrays u type)
    (u.defaultType type) type s.tm_scope none

/-- Swig_typemap_search_multi: search the first parameter; on a hit, extend
the method key by its signature and recurse on the remaining parameters.
nmatch is the in-out int argument of the C function. -/
def Swig_typemap_search_multi (u : TypeUtils) (fuel : Nat) (s : Store) :
    String → List Parm → Nat → Option (Option Entry × Nat)
  | _, [], _ => some (none, 0)
  | op, p :: rest, nIn =>
    match Swig_typemap_search u fuel s op p.type p.name with
    | none => none
    | some none => some (none, nIn)
    | some (some tm) =>
      match Swig_typemap_search_multi u fuel s
          (op ++ "-" ++ p.type ++ "+" ++ nstr p.name ++ ":") rest nIn with
      | none => none
      | some (tm1, n') =>
        let tm2 := tm1.getD tm
        if tm2.code.isSome then some (some tm2, n' + 1) else some (none, n')

/-- Swig_except_register: store the handler string under the *except* key of
the current (top) scope. -/
def Swig_except_register (code : String) (s : Store) : Store :=
  let sc := (scopeAt s s.tm_scope).getD {}
  setScope s s.tm_scope { sc with exceptStr := some code }

/-- The scan loop of Swig_except_lookup, transcribed as the C code executes:
the loop counter ts is decremented, but every iteration reads
typemaps[tm_scope] (typemap.c line 1078), never typemaps[ts]. -/
def exceptScan (s : Store) : Nat → Option String
  | 0 => (scopeAt s s.tm_scope).bind (fun sc => sc.exceptStr)
  | ts' + 1 =>
    match (scopeAt s s.tm_scope).bind (fun sc => sc.exceptStr) with
    | some x => some x
    | none => exceptScan s ts'

/-- Swig_except_lookup: scan for the registered handler string. -/
def Swig_except_lookup (s : Store) : Option String := exceptScan s s.tm_scope

/-- Swig_except_clear: remove the handler string from the current scope. -/
def Swig_except_clear (s : Store) : Store :=
  let sc := (scopeAt s s.tm_scope).getD {}
  setScope s s.tm_scope { sc with exceptStr := none }

/-- The signature-suffix codec: the method key for the parameter tail
preceding the last parameter of a multi-argument rule. -/
def encodeOp (op : String) : List Parm → String
  | [] => op
  | p :: rest => encodeOp (op ++ "-" ++ p.type ++ "+" ++ nstr p.name ++ ":") rest

/-- count_args (typemap.c): the number of plus characters in a method key. -/
def count_args (s : String) : Nat := (s.data.filter (fun c => c = '+')).length

/-- A store is well formed when the typemaps array has its static size and
the scope counter is in bounds (the C code indexes the array with it). -/
def Store.ok (s : Store) : Prop :=
  s.typemaps.length = MAX_SCOPE ∧ s.tm_scope < MAX_SCOPE

/-- Read the entry stored in the top scope under (type, optional name,
method key). -/
def entryAtTop (s : Store) (T : String) (n : Option String) (k : String) : Option Entry :=
  (scopeAt s s.tm_scope).bind fun sc => readScope sc T n k

/-- The top scope of the store as a value (an absent slot reads as empty). -/
def topScopeD (s : Store) : Scope := (scopeAt s s.tm_scope).getD {}

/-- Worker for replaceAll, structurally recursive on a fuel bounded below by
the length of the string (each step consumes at least one character). -/
def replaceAllAux (pat rep : List Char) : Nat → List Char → List Char × Nat
  | _, [] => ([], 0)
  | 0, s => (s, 0)
  | f + 1, c :: rest =>
    if pat ≠ [] ∧ isPre pat (c :: rest) = true then
      let r := replaceAllAux pat rep f ((c :: rest).drop pat.length)
      (rep ++ r.1, r.2 + 1)
    else
      let r := replaceAllAux pat rep f rest
      (c :: r.1, r.2)

/-- DOH Replace with DOH_REPLACE_ANY: replace every occurrence of pat by rep,
scanning left to right without rescanning the inserted replacement, and
return the new string together with the number of replacements made. -/
def replaceAll (pat rep : List Char) (s : List Char) : List Char × Nat :=
  replaceAllAux pat rep s.length s

/-- strstr: does the string contain the pattern as a contiguous substring? -/
def hasSub (pat : List Char) : List Char → Bool
  | [] => isPre pat []
  | c :: r => isPre pat (c :: r) || hasSub pat r

/-- The state threaded through typemap_replace_vars: the code string, the
local declarations whose types are being rewritten alongside it (empty when
no local type contains a dollar character), and the list of types passed to
SwigType_remember, in call order. -/
structure RVState where
  s : List Char
  locs : List Parm
  rems : List String
deriving DecidableEq, Repr

/-- Replace in the code string only. -/
def rvReplace (st : RVState) (pat rep : List Char) : RVState :=
  { st with s := (replaceAll pat rep st.s).1 }

/-- replace_local_types: replace inside the type of every local. -/
def rvLocals (st : RVState) (pat rep : List Char) : RVState :=
  { st with locs := st.locs.map fun p => { p with type := ⟨(replaceAll pat rep p.type.data).1⟩ } }

/-- Replace in the code string and in the local types, with the same
replacement text. -/
def rvBoth (st : RVState) (pat rep : List Char) : RVState :=
  rvLocals (rvReplace st pat rep) pat rep

/-- Replace in the code string and, if at least one occurrence was actually
replaced, record a SwigType_remember call for the given type. -/
def rvReplaceRem (st : RVState) (pat rep : List Char) (t : String) : RVState :=
  let r := replaceAll pat rep st.s
  { st with s := r.1, rems := if 0 < r.2 then st.rems ++ [t] else st.rems }

/-- One dimension of the array-dimension substitution: replace the bare form
(only at index 1) and the indexed form by the dimension text. -/
def rvDimStep (u : TypeUtils) (type : String) (index : Nat) (varP : List Char)
    (st : RVState) (i : Nat) : RVState :=
  let dim := (u.array_getdim type i).data
  let st :=
    if index = 1 then rvBoth st ('$' :: ("dim" ++ toString i).data) dim else st
  rvBoth st (varP ++ ("dim" ++ toString i).data) dim

/-- Array-dimension substitution of typemap_replace_vars: for every dimension
i replace the bare form (only at index 1) and the indexed form. -/
def rvDims (u : TypeUtils) (type : String) (index : Nat) (varP : List Char)
    (st : RVState) : RVState :=
  if u.isarray type then
    (List.range (u.array_ndim type)).foldl (rvDimStep u type index varP) st
  else st

/-- The type substitution block, guarded by a strstr check on the current
string.  The code string receives the pretty-printed type, the local types
receive the raw type string. -/
def rvTypeBlock (u : TypeUtils) (type : String) (index : Nat) (varP : List Char)
    (st : RVState) : RVState :=
  if hasSub "type".data st.s then
    let ts := (u.str type none).data
    let st :=
      if index = 1 then
        rvLocals (rvReplace st ('$' :: "type".data) ts) ('$' :: "type".data) type.data
      else st
    rvLocals (rvReplace st (varP ++ "type".data) ts) (varP ++ "type".data) type.data
  else st

/-- The ltype substitution block. -/
def rvLtypeBlock (u : TypeUtils) (type : String) (index : Nat) (varP : List Char)
    (st : RVState) : RVState :=
  if hasSub "ltype".data st.s then
    let lt := u.ltype type
    let ts := (u.str lt none).data
    let st :=
      if index = 1 then
        rvLocals (rvReplace st ('$' :: "ltype".data) ts) ('$' :: "ltype".data) lt.data
      else st
    rvLocals (rvReplace st (varP ++ "ltype".data) ts) (varP ++ "ltype".data) lt.data
  else st

/-- The mangle and descriptor substitution block: a replaced descriptor
variable triggers a SwigType_remember call on the type. -/
def rvMangleBlock (u : TypeUtils) (type : String) (index : Nat) (varP : List Char)
    (st : RVState) : RVState :=
  if hasSub "mangle".data st.s || hasSub "descriptor".data st.s then
    let mg := (u.manglestr type).data
    let st := if index = 1 then rvReplace st ('$' :: "mangle".data) mg else st
    let st := rvReplace st (varP ++ "mangle".data) mg
    let de := "SWIGTYPE".data ++ mg
    let st := if index = 1 then rvReplaceRem st ('$' :: "descriptor".data) de type else st
    rvReplaceRem st (varP ++ "descriptor".data) de type
  else st

/-- The one-pointer-level-removed block, run only for pointer types; its
descriptor substitutions remember the pointee type. -/
def rvStarBlock (u : TypeUtils) (type : String) (index : Nat) (st : RVState) : RVState :=
  if u.ispointer type then
    let star := u.del_pointer type
    let ts := (u.str star none).data
    let st :=
      if index = 1 then
        rvLocals (rvReplace st ('$' :: '*' :: "type".data) ts) ('$' :: '*' :: "type".data) star.data
      else st
    let pv : List Char := '$' :: '*' :: (toString index).data
    let st := rvLocals (rvReplace st (pv ++ "_type".data) ts) (pv ++ "_type".data) star.data
    let slt := u.ltype star
    let ts2 := (u.str slt none).data
    let st :=
      if index = 1 then
        rvLocals (rvReplace st ('$' :: '*' :: "ltype".data) ts2) ('$' :: '*' :: "ltype".data) slt.data
      else st
    let st := rvLocals (rvReplace st (pv ++ "_ltype".data) ts2) (pv ++ "_ltype".data) slt.data
    let sm := (u.manglestr star).data
    let st := if index = 1 then rvReplace st ('$' :: '*' :: "mangle".data) sm else st
    let st := rvReplace st (pv ++ "_mangle".data) sm
    let sd := "SWIGTYPE".data ++ sm
    let st := if index = 1 then rvReplaceRem st ('$' :: '*' :: "descriptor".data) sd star else st
    rvReplaceRem st (pv ++ "_descriptor".data) sd star
  else st

/-- The one-pointer-level-added block, always run; its descriptor
substitutions remember the pointer type. -/
def rvAmpBlock (u : TypeUtils) (type : String) (index : Nat) (st : RVState) : RVState :=
  let amp := u.add_pointer type
  let ts := (u.str amp none).data
  let st :=
    if index = 1 then
      rvLocals (rvReplace st ('$' :: '&' :: "type".data) ts) ('$' :: '&' :: "type".data) amp.data
    else st
  let pv : List Char := '$' :: '&' :: (toString index).data
  let st := rvLocals (rvReplace st (pv ++ "_type".data) ts) (pv ++ "_type".data) amp.data
  let alt := u.ltype amp
  let ts2 := (u.str alt none).data
  let st :=
    if index = 1 then
      rvLocals (rvReplace st ('$' :: '&' :: "ltype".data) ts2) ('$' :: '&' :: "ltype".data) alt.data
    else st
  let st := rvLocals (rvReplace st (pv ++ "_ltype".data) ts2) (pv ++ "_ltype".data) alt.data
  let am := (u.manglestr amp).data
  let st := if index = 1 then rvReplace st ('$' :: '&' :: "mangle".data) am else st
  let st := rvReplace st (pv ++ "_mangle".data) am
  let ad := "SWIGTYPE".data ++ am
  let st := if index = 1 then rvReplaceRem st ('$' :: '&' :: "descriptor".data) ad amp else st
  rvReplaceRem st (pv ++ "_descriptor".data) ad amp

/-- The base-type block. -/
def rvBaseBlock (u : TypeUtils) (type : String) (index : Nat) (varP : List Char)
    (st : RVState) : RVState :=
  let bt := u.base type
  let st := if index = 1 then rvBoth st ('$' :: "basetype".data) bt.data else st
  let st := rvBoth st (varP ++ "basetype".data) bt.data
  let bm := (u.manglestr bt).data
  let st := if index = 1 then rvReplace st ('$' :: "basemangle".data) bm else st
  rvReplace st (varP ++ "basemangle".data) bm

/-- typemap_replace_vars: expand the dollar variables of a code template (and
of the local declaration types, when any of them contains a dollar) for the
parameter at the given 1-based index.  An absent parameter name falls back to
the wrapper-local name. -/
def typemap_replace_vars (u : TypeUtils) (s0 : List Char) (locals : List Parm)
    (type : String) (pname0 : Option String) (lname : String) (index : Nat) : RVState :=
  let pname := pname0.getD lname
  let anyDollar := locals.any fun p => p.type.data.any fun c => c = '$'
  let locs := if anyDollar then locals else []
  let varP : List Char := '$' :: (toString index).data ++ ['_']
  let st := rvDims u type index varP ⟨s0, locs, []⟩
  let st := if index = 1 then rvReplace st ('$' :: "parmname".data) pname.data else st
  let st := rvReplace st (varP ++ "name".data) pname.data
  let st := rvTypeBlock u type index varP st
  let st := rvLtypeBlock u type index varP st
  let st := rvMangleBlock u type index varP st
  let st := rvStarBlock u type index st
  let st := rvAmpBlock u type index st
  let st := rvBaseBlock u type index varP st
  rvReplace st ('$' :: (toString index).data) lname.data

theorem aget_nil {α : Type} (k : String) : aget ([] : List (String × α)) k = none := rfl

theorem aget_aset_self {α : Type} (l : List (String × α)) (k : String) (v : α) :
    aget (aset l k v) k = some v := by
  induction l with
  | nil => simp [aget, aset]
  | cons h t ih =>
    obtain ⟨k', w⟩ := h
    by_cases hk : k' = k
    · simp [aget, aset, hk]
    · simp [aget, aset, hk, ih]

theorem aget_aset_ne {α : Type} (l : List (String × α)) (k k' : String) (v : α)
    (h : k' ≠ k) : aget (aset l k v) k' = aget l k' := by
  have h2 : ¬ (k = k') := fun he => h he.symm
  induction l with
  | nil => simp [aget, aset, h2]
  | cons hd t ih =>
    obtain ⟨k'', w⟩ := hd
    by_cases hk : k'' = k
    · subst hk
      simp [aget, aset, h2]
    · simp [aget, aset, hk, ih]

theorem getD_set_self {α : Type} (l : List α) (i : Nat) (v d : α) (h : i < l.length) :
    (l.set i v).getD i d = v := by
  induction l generalizing i with
  | nil => simp at h
  | cons a t ih =>
    cases i with
    | zero => rfl
    | succ j => simpa [List.getD] using ih j (by simpa using h)

theorem getD_set_ne {α : Type} (l : List α) (i j : Nat) (v d : α) (h : j ≠ i) :
    (l.set i v).getD j d = l.getD j d := by
  induction l generalizing i j with
  | nil => simp
  | cons a t ih =>
    cases i with
    | zero =>
      cases j with
      | zero => exact absurd rfl h
      | succ j' => simp [List.getD]
    | succ i' =>
      cases j with
      | zero => simp [List.getD]
      | succ j' => simpa [List.getD] using ih i' j' (fun he => h (by omega))

theorem set_oob {α : Type} (l : List α) (i : Nat) (v : α) (h : l.length ≤ i) :
    l.set i v = l := by
  induction l generalizing i with
  | nil => rfl
  | cons a t ih =>
    cases i with
    | zero => simp at h
    | succ j => simp [List.set, ih j (by simpa using h)]

theorem tm_scope_setScope (s : Store) (i : Nat) (sc : Scope) :
    (setScope s i sc).tm_scope = s.tm_scope := rfl

theorem scopeAt_setScope_self (s : Store) (i : Nat) (sc : Scope)
    (h : i < s.typemaps.length) : scopeAt (setScope s i sc) i = some sc := by
  unfold scopeAt setScope
  exact getD_set_self _ _ _ _ h

theorem scopeAt_setScope_ne (s : Store) (i j : Nat) (sc : Scope) (h : j ≠ i) :
    scopeAt (setScope s i sc) j = scopeAt s j := by
  unfold scopeAt setScope
  exact getD_set_ne _ _ _ _ _ h

theorem readScope_empty (T : String) (n : Option String) (k : String) :
    readScope {} T n k = none := by
  simp [readScope, aget]

theorem entryAtTop_eq_readScope (s : Store) (T : String) (n : Option String) (k : String) :
    entryAtTop s T n k = readScope (topScopeD s) T n k := by
  cases h : scopeAt s s.tm_scope <;> simp [entryAtTop, topScopeD, h, readScope_empty]

theorem readScope_updScope_self (sc : Scope) (T : String) (n : Option String) (k : String)
    (f : Entry → Entry) :
    readScope (updScope sc T n k f) T n k
      = some (f ((readScope sc T n k).getD Entry.empty)) := by
  cases n with
  | none =>
    cases h : aget sc.types T <;>
      simp [readScope, updScope, h, aget_aset_self, aget, Entry.empty]
  | some nm =>
    cases h : aget sc.types T with
    | none =>
      simp [readScope, updScope, h, aget_aset_self, aget, Entry.empty]
    | some tn =>
      cases h2 : aget tn.names nm <;>
        simp [readScope, updScope, h, h2, aget_aset_self, aget, Entry.empty]

theorem readScope_updScope_ne (sc : Scope) (T : String) (n : Option String) (k : String)
    (f : Entry → Entry) (T' : String) (n' : Option String) (k' : String)
    (h : T' ≠ T ∨ n' ≠ n ∨ k' ≠ k) :
    readScope (updScope sc T n k f) T' n' k' = readScope sc T' n' k' := by
  by_cases hT : T' = T
  · subst hT
    have h2 : n' ≠ n ∨ k' ≠ k := by
      rcases h with h | h | h
      · exact absurd rfl h
      · exact Or.inl h
      · exact Or.inr h
    cases hg : aget sc.types T' with
    | none =>
      cases n with
      | none =>
        cases n' with
        | none =>
          have hk : k' ≠ k := by
            rcases h2 with h2 | h2
            · exact absurd rfl h2
            · exact h2
          have hk2 : ¬ (k = k') := fun he => hk he.symm
          simp [readScope, updScope, hg, aget_aset_self, hk2, aget]
        | some nm' =>
          simp [readScope, updScope, hg, aget_aset_self, aget]
      | some nm =>
        cases n' with
        | none => simp [readScope, updScope, hg, aget_aset_self, aget]
        | some nm' =>
          by_cases hnm : nm' = nm
          · subst hnm
            have hk : k' ≠ k := by
              rcases h2 with h2 | h2
              · exact absurd rfl h2
              · exact h2
            have hk2 : ¬ (k = k') := fun he => hk he.symm
            simp [readScope, updScope, hg, aget_aset_self, hk2, aget]
          · have hnm2 : ¬ (nm = nm') := fun he => hnm he.symm
            simp [readScope, updScope, hg, aget_aset_self, hnm2, aget]
    | some tn =>
      cases n with
      | none =>
        cases n' with
        | none =>
          have hk : k' ≠ k := by
            rcases h2 with h2 | h2
            · exact absurd rfl h2
            · exact h2
          simp [readScope, updScope, hg, aget_aset_self, aget_aset_ne _ _ _ _ hk]
        | some nm' => simp [readScope, updScope, hg, aget_aset_self]
      | some nm =>
        cases n' with
        | none => simp [readScope, updScope, hg, aget_aset_self]
        | some nm' =>
          by_cases hnm : nm' = nm
          · subst hnm
            have hk : k' ≠ k := by
              rcases h2 with h2 | h2
              · exact absurd rfl h2
              · exact h2
            have hk2 : ¬ (k = k') := fun he => hk he.symm
            cases h3 : aget tn.names nm' <;>
              simp [readScope, updScope, hg, h3, aget_aset_self,
                aget_aset_ne _ _ _ _ hk, hk2, aget]
          · simp [readScope, updScope, hg, aget_aset_self,
              aget_aset_ne _ _ _ _ hnm]
  · simp [readScope, updScope, aget_aset_ne _ _ _ _ hT]

theorem tm_scope_updEntryTop (s : Store) (T : String) (n : Option String) (k : String)
    (f : Entry → Entry) : (updEntryTop s T n k f).tm_scope = s.tm_scope := rfl

theorem length_updEntryTop (s : Store) (T : String) (n : Option String) (k : String)
    (f : Entry → Entry) : (updEntryTop s T n k f).typemaps.length = s.typemaps.length := by
  simp [updEntryTop, setScope]

theorem scopeAt_updEntryTop_ne (s : Store) (T : String) (n : Option String) (k : String)
    (f : Entry → Entry) (i : Nat) (h : i ≠ s.tm_scope) :
    scopeAt (updEntryTop s T n k f) i = scopeAt s i :=
  scopeAt_setScope_ne s s.tm_scope i _ h

theorem entryAtTop_upd_self (s : Store) (T : String) (n : Option String) (k : String)
    (f : Entry → Entry) (h : s.tm_scope < s.typemaps.length) :
    entryAtTop (updEntryTop s T n k f) T n k
      = some (f ((entryAtTop s T n k).getD Entry.empty)) := by
  have h1 : scopeAt (updEntryTop s T n k f) s.tm_scope
      = some (updScope (topScopeD s) T n k f) :=
    scopeAt_setScope_self s s.tm_scope _ h
  rw [entryAtTop, tm_scope_updEntryTop, h1]
  simp only [Option.some_bind]
  rw [readScope_updScope_self, entryAtTop_eq_readScope]

theorem updEntryTop_oob (s : Store) (T : String) (n : Option String) (k : String)
    (f : Entry → Entry) (h : ¬ s.tm_scope < s.typemaps.length) :
    updEntryTop s T n k f = s := by
  obtain ⟨tms, ts⟩ := s
  simp only [updEntryTop, setScope]
  simp at h
  rw [set_oob _ _ _ h]

theorem entryAtTop_upd_ne (s : Store) (T : String) (n : Option String) (k : String)
    (f : Entry → Entry) (T' : String) (n' : Option String) (k' : String)
    (h : T' ≠ T ∨ n' ≠ n ∨ k' ≠ k) :
    entryAtTop (updEntryTop s T n k f) T' n' k' = entryAtTop s T' n' k' := by
  by_cases hlt : s.tm_scope < s.typemaps.length
  · have h1 : scopeAt (updEntryTop s T n k f) s.tm_scope
        = some (updScope (topScopeD s) T n k f) :=
      scopeAt_setScope_self s s.tm_scope _ hlt
    rw [entryAtTop, tm_scope_updEntryTop, h1]
    simp only [Option.some_bind]
    rw [readScope_updScope_ne _ _ _ _ _ _ _ _ h, entryAtTop_eq_readScope]
  · rw [updEntryTop_oob _ _ _ _ _ hlt]

theorem probeName_eq_readScope (sc : Scope) (T nm k : String) :
    probeName sc T (some nm) k = readScope sc T (some nm) k := by
  cases h : aget sc.types T <;> simp [probeName, readScope, h]

theorem probeName_none (sc : Scope) (T k : String) :
    probeName sc T none k = none := by
  cases h : aget sc.types T <;> simp [probeName, h]

theorem probeType_eq_readScope (sc : Scope) (T k : String) :
    probeType sc T k = readScope sc T none k := rfl

theorem scopeProbes_name_hit (sc : Scope) (tmop : String) (cname : Option String)
    (isarr : Bool) (noarrays ctype : String) (backup : Option Entry) (e : Entry)
    (hp : probeName sc ctype cname tmop = some e) (hc : e.code.isSome = true) :
    scopeProbes sc tmop cname isarr noarrays ctype backup = Sum.inl e := by
  simp [scopeProbes, step, hp, hc]

theorem scopeProbes_type_hit (sc : Scope) (tmop : String) (cname : Option String)
    (isarr : Bool) (noarrays ctype : String) (backup : Option Entry) (e : Entry)
    (hp0 : probeName sc ctype cname tmop = none)
    (hp : probeType sc ctype tmop = some e) (hc : e.code.isSome = true) :
    scopeProbes sc tmop cname isarr noarrays ctype backup = Sum.inl e := by
  simp [scopeProbes, step, hp0, hp, hc]

theorem scopeLoop_found (u : TypeUtils) (sc : Scope) (tmop : String)
    (cname : Option String) (isarr : Bool) (noarrays : String) (fuel : Nat)
    (ctype : String) (unstr : Bool) (backup : Option Entry) (e : Entry)
    (hp : scopeProbes sc tmop cname isarr noarrays ctype backup = Sum.inl e) :
    scopeLoop u sc tmop cname isarr noarrays fuel ctype unstr backup
      = some (ScopeRes.found e) := by
  cases fuel <;> simp [scopeLoop, hp]

theorem searchScopes_found (u : TypeUtils) (fuel : Nat) (s : Store) (tmop : String)
    (cname : Option String) (isarr : Bool) (noarrays : String)
    (primitive : Option String) (type : String) (ts : Nat) (backup : Option Entry)
    (e : Entry)
    (hp : scopeProbes ((scopeAt s ts).getD {}) tmop cname isarr noarrays type backup
        = Sum.inl e) :
    searchScopes u fuel s tmop cname isarr noarrays primitive type ts backup
      = some (some e) := by
  rw [searchScopes]
  rw [scopeLoop_found u _ tmop cname isarr noarrays fuel type false backup e hp]

theorem search_top_name_hit (u : TypeUtils) (fuel : Nat) (s : Store) (op T nm : String)
    (e : Entry) (hnm : ¬ nm = "")
    (hp : readScope (topScopeD s) T (some nm) (tmop_name op) = some e)
    (hc : e.code.isSome = true) :
    Swig_typemap_search u fuel s op T (some nm) = some (some e) := by
  rw [Swig_typemap_search]
  have hcn : cnameOf (some nm) = some nm := by simp [cnameOf, hnm]
  rw [hcn]
  apply searchScopes_found
  apply scopeProbes_name_hit _ _ _ _ _ _ _ e _ hc
  rw [probeName_eq_readScope]
  exact hp

theorem search_top_type_hit (u : TypeUtils) (fuel : Nat) (s : Store) (op T : String)
    (name : Option String) (e : Entry) (hname : cnameOf name = none)
    (hp : readScope (topScopeD s) T none (tmop_name op) = some e)
    (hc : e.code.isSome = true) :
    Swig_typemap_search u fuel s op T name = some (some e) := by
  rw [Swig_typemap_search, hname]
  apply searchScopes_found
  apply scopeProbes_type_hit _ _ _ _ _ _ _ e (probeName_none _ _ _) _ hc
  rw [probeType_eq_readScope]
  exact hp

theorem step_inr_isSome (r : Option Entry) (backup b : Option Entry)
    (hb : backup.isSome = true) (h : step r backup = Sum.inr b) : b.isSome = true := by
  cases r with
  | none => simp [step] at h; simpa [h.symm] using hb
  | some e =>
    by_cases hc : e.code.isSome = true
    · simp [step, hc] at h
    · simp [step, hc] at h
      simp [h.symm]

theorem scopeProbes_inr_isSome (sc : Scope) (tmop : String) (cname : Option String)
    (isarr : Bool) (noarrays ctype : String) (backup b : Option Entry)
    (hb : backup.isSome = true)
    (h : scopeProbes sc tmop cname isarr noarrays ctype backup = Sum.inr b) :
    b.isSome = true := by
  rw [scopeProbes] at h
  rcases h1 : step (probeName sc ctype cname tmop) backup with e1 | b1
  · simp [h1] at h
  · simp only [h1] at h
    have hb1 := step_inr_isSome _ _ _ hb h1
    rcases h2 : step (probeType sc ctype tmop) b1 with e2 | b2
    · simp [h2] at h
    · simp only [h2] at h
      have hb2 := step_inr_isSome _ _ _ hb1 h2
      by_cases ha : isarr
      · rw [if_pos ha] at h
        rcases h3 : step (probeName sc noarrays cname tmop) b2 with e3 | b3
        · simp [h3] at h
        · simp only [h3] at h
          have hb3 := step_inr_isSome _ _ _ hb2 h3
          rcases h4 : step (probeType sc noarrays tmop) b3 with e4 | b4
          · simp [h4] at h
          · simp only [h4] at h
            cases h
            exact step_inr_isSome _ _ _ hb3 h4
      · rw [if_neg ha] at h
        cases h
        exact hb2

theorem scopeLoop_trivial (u : TypeUtils) (sc : Scope) (tmop : String)
    (cname : Option String) (isarr : Bool) (noarrays : String) (fuel : Nat)
    (ctype : String) (backup : Option Entry)
    (hstrip : ∀ t, u.strip_qualifiers t = t)
    (hres : ∀ t, u.typedef_resolve t = none) :
    scopeLoop u sc tmop cname isarr noarrays fuel ctype false backup
      = match scopeProbes sc tmop cname isarr noarrays ctype backup with
        | Sum.inl e => some (ScopeRes.found e)
        | Sum.inr b => some (ScopeRes.cont b) := by
  rcases h : scopeProbes sc tmop cname isarr noarrays ctype backup with e | b <;>
    cases fuel <;> simp [scopeLoop, h, hstrip, hres]

theorem searchScopes_total (u : TypeUtils) (fuel : Nat) (s : Store) (tmop : String)
    (cname : Option String) (isarr : Bool) (noarrays : String)
    (primitive : Option String) (type : String)
    (hstrip : ∀ t, u.strip_qualifiers t = t)
    (hres : ∀ t, u.typedef_resolve t = none) :
    ∀ (ts : Nat) (backup : Option Entry), backup.isSome = true →
    ∃ e, searchScopes u fuel s tmop cname isarr noarrays primitive type ts backup
      = some (some e) := by
  intro ts
  induction ts with
  | zero =>
    intro backup hb
    rw [searchScopes]
    rw [scopeLoop_trivial u _ tmop cname isarr noarrays fuel type backup hstrip hres]
    rcases h : scopeProbes ((scopeAt s 0).getD {}) tmop cname isarr noarrays type backup
      with e | b
    · exact ⟨e, rfl⟩
    · have hbs := scopeProbes_inr_isSome _ _ _ _ _ _ _ _ hb h
      rcases hd : defaultProbe ((scopeAt s 0).getD {}) tmop cname primitive with _ | e2
      · rcases Option.isSome_iff_exists.mp hbs with ⟨e3, he3⟩
        exact ⟨e3, by simp [hd, he3]⟩
      · exact ⟨e2, by simp [hd]⟩
  | succ ts' ih =>
    intro backup hb
    rw [searchScopes]
    rw [scopeLoop_trivial u _ tmop cname isarr noarrays fuel type backup hstrip hres]
    rcases h : scopeProbes ((scopeAt s (ts' + 1)).getD {}) tmop cname isarr noarrays type
        backup with e | b
    · exact ⟨e, rfl⟩
    · have hbs := scopeProbes_inr_isSome _ _ _ _ _ _ _ _ hb h
      rcases hd : defaultProbe ((scopeAt s (ts' + 1)).getD {}) tmop cname primitive
        with _ | e2
      · rcases ih b hbs with ⟨e3, he3⟩
        exact ⟨e3, by simp [hd, he3]⟩
      · exact ⟨e2, by simp [hd]⟩

theorem search_total_of_backstop (u : TypeUtils) (fuel : Nat) (s : Store) (op T nm : String)
    (e0 : Entry) (hnm : ¬ nm = "")
    (hstrip : ∀ t, u.strip_qualifiers t = t)
    (hres : ∀ t, u.typedef_resolve t = none)
    (hp : readScope (topScopeD s) T (some nm) (tmop_name op) = some e0) :
    ∃ e, Swig_typemap_search u fuel s op T (some nm) = some (some e) := by
  rw [Swig_typemap_search]
  have hcn : cnameOf (some nm) = some nm := by simp [cnameOf, hnm]
  rw [hcn]
  rw [searchScopes]
  rw [scopeLoop_trivial u _ _ _ _ _ fuel T none hstrip hres]
  have hpn : probeName (topScopeD s) T (some nm) (tmop_name op) = some e0 := by
    rw [probeName_eq_readScope]; exact hp
  rcases h : scopeProbes ((scopeAt s s.tm_scope).getD {}) (tmop_name op) (some nm)
      (u.isarray T) (strip_arrays u T) T none with e | b
  · exact ⟨e, rfl⟩
  · have hbs : b.isSome = true := by
      rw [scopeProbes] at h
      rcases h1 : step (probeName ((scopeAt s s.tm_scope).getD {}) T (some nm)
          (tmop_name op)) none with e1 | b1
      · simp [h1] at h
      · simp only [h1] at h
        have hb1 : b1.isSome = true := by
          rw [show ((scopeAt s s.tm_scope).getD {}) = topScopeD s from rfl, hpn] at h1
          by_cases hc : e0.code.isSome = true
          · simp [step, hc] at h1
          · simp [step, hc] at h1
            simp [h1.symm]
        rcases h2 : step (probeType ((scopeAt s s.tm_scope).getD {}) T (tmop_name op)) b1
          with e2 | b2
        · simp [h2] at h
        · simp only [h2] at h
          have hb2 := step_inr_isSome _ _ _ hb1 h2
          by_cases ha : u.isarray T = true
          · rw [if_pos ha] at h
            rcases h3 : step (probeName ((scopeAt s s.tm_scope).getD {}) (strip_arrays u T)
                (some nm) (tmop_name op)) b2 with e3 | b3
            · simp [h3] at h
            · simp only [h3] at h
              have hb3 := step_inr_isSome _ _ _ hb2 h3
              rcases h4 : step (probeType ((scopeAt s s.tm_scope).getD {}) (strip_arrays u T)
                  (tmop_name op)) b3 with e4 | b4
              · simp [h4] at h
              · simp only [h4] at h
                cases h
                exact step_inr_isSome _ _ _ hb3 h4
          · rw [if_neg ha] at h
            cases h
            exact hb2
    rcases hd : defaultProbe ((scopeAt s s.tm_scope).getD {}) (tmop_name op) (some nm)
        (u.defaultType T) with _ | e2
    · cases hts : s.tm_scope with
      | zero =>
        rcases Option.isSome_iff_exists.mp hbs with ⟨e3, he3⟩
        exact ⟨e3, by simp [hd, he3]⟩
      | succ ts' =>
        rcases searchScopes_total u fuel s (tmop_name op) (some nm) (u.isarray T)
          (strip_arrays u T) (u.defaultType T) T hstrip hres ts' b hbs with ⟨e3, he3⟩
        exact ⟨e3, by simp [hd, he3]⟩
    · exact ⟨e2, by simp [hd]⟩

theorem encodeOp_cons (op : String) (p : Parm) (rest : List Parm) :
    encodeOp op (p :: rest)
      = encodeOp (op ++ "-" ++ p.type ++ "+" ++ nstr p.name ++ ":") rest := rfl

theorem extOp_length (op t n : String) :
    (op ++ "-" ++ t ++ "+" ++ n ++ ":").length = op.length + t.length + n.length + 3 := by
  have h1 : ("-" : String).length = 1 := rfl
  have h2 : ("+" : String).length = 1 := rfl
  have h3 : (":" : String).length = 1 := rfl
  simp [String.length_append, h1, h2, h3]
  omega

theorem encodeOp_length (op : String) : ∀ l : List Parm,
    op.length + 3 * l.length ≤ (encodeOp op l).length
  | [] => by simp [encodeOp]
  | p :: rest => by
    have h := encodeOp_length (op ++ "-" ++ p.type ++ "+" ++ nstr p.name ++ ":") rest
    rw [encodeOp_cons]
    rw [extOp_length] at h
    simp only [List.length_cons]
    omega

theorem tmapKey_ne_of_length (x y : String) (h : x.length ≠ y.length) :
    ("tmap:" ++ x : String) ≠ "tmap:" ++ y := by
  intro he
  apply h
  have := congrArg String.length he
  simp [String.length_append] at this
  exact this

theorem encodeOp_tail_key_ne (op : String) (p : Parm) (pre : List Parm) :
    ("tmap:" ++ encodeOp (op ++ "-" ++ p.type ++ "+" ++ nstr p.name ++ ":") pre : String)
      ≠ "tmap:" ++ encodeOp op [] := by
  apply tmapKey_ne_of_length
  have h := encodeOp_length (op ++ "-" ++ p.type ++ "+" ++ nstr p.name ++ ":") pre
  rw [extOp_length] at h
  simp [encodeOp]
  omega

theorem register_frame (u : TypeUtils) (parms : List Parm) :
    ∀ (op code : String) (L K : List Parm) (s : Store)
      (T : String) (n : Option String) (k : String),
    (∀ pre p post, parms = pre ++ p :: post →
        ("tmap:" ++ encodeOp op pre ≠ k ∨ p.type ≠ T ∨ p.name ≠ n)) →
    entryAtTop (Swig_typemap_register_multi u op parms code L K s) T n k
      = entryAtTop s T n k := by
  induction parms with
  | nil =>
    intro op code L K s T n k h
    rfl
  | cons p np ih =>
    intro op code L K s T n k h
    have h0 := h [] p np rfl
    rw [show ("tmap:" ++ encodeOp op [] : String) = tmop_name op from rfl] at h0
    have h0' : T ≠ p.type ∨ n ≠ p.name ∨ k ≠ tmop_name op := by
      rcases h0 with h0 | h0 | h0
      · exact Or.inr (Or.inr (fun he => h0 he.symm))
      · exact Or.inl (fun he => h0 he.symm)
      · exact Or.inr (Or.inl (fun he => h0 he.symm))
    cases np with
    | nil =>
      simp only [Swig_typemap_register_multi]
      exact entryAtTop_upd_ne _ _ _ _ _ _ _ _ h0'
    | cons q t =>
      have hreg : Swig_typemap_register_multi u op (p :: q :: t) code L K s
          = Swig_typemap_register_multi u (op ++ "-" ++ p.type ++ "+" ++ nstr p.name ++ ":")
              (q :: t) code L K (updEntryTop s p.type p.name (tmop_name op) (fun e => e)) :=
        rfl
      rw [hreg]
      rw [ih (op ++ "-" ++ p.type ++ "+" ++ nstr p.name ++ ":") code L K _ T n k ?hh]
      · exact entryAtTop_upd_ne _ _ _ _ _ _ _ _ h0'
      case hh =>
        intro pre' p' post' hsplit
        have h2 := h (p :: pre') p' post' (by rw [hsplit]; rfl)
        simpa [encodeOp_cons] using h2

theorem register_tm_scope (u : TypeUtils) (parms : List Parm) :
    ∀ op code L K s,
    (Swig_typemap_register_multi u op parms code L K s).tm_scope = s.tm_scope := by
  induction parms with
  | nil => intro _ _ _ _ _; rfl
  | cons p np ih =>
    intro op code L K s
    cases np with
    | nil => rfl
    | cons q t =>
      have hreg : Swig_typemap_register_multi u op (p :: q :: t) code L K s
          = Swig_typemap_register_multi u (op ++ "-" ++ p.type ++ "+" ++ nstr p.name ++ ":")
              (q :: t) code L K (updEntryTop s p.type p.name (tmop_name op) (fun e => e)) :=
        rfl
      rw [hreg, ih]
      rfl

theorem register_length (u : TypeUtils) (parms : List Parm) :
    ∀ op code L K s,
    (Swig_typemap_register_multi u op parms code L K s).typemaps.length
      = s.typemaps.length := by
  induction parms with
  | nil => intro _ _ _ _ _; rfl
  | cons p np ih =>
    intro op code L K s
    cases np with
    | nil => exact length_updEntryTop _ _ _ _ _
    | cons q t =>
      have hreg : Swig_typemap_register_multi u op (p :: q :: t) code L K s
          = Swig_typemap_register_multi u (op ++ "-" ++ p.type ++ "+" ++ nstr p.name ++ ":")
              (q :: t) code L K (updEntryTop s p.type p.name (tmop_name op) (fun e => e)) :=
        rfl
      rw [hreg, ih]
      exact length_updEntryTop _ _ _ _ _

theorem fillEntry_code_isSome (u : TypeUtils) (op T : String) (pname : Option String)
    (code : String) (locals kwargs : List Parm) (e : Entry) :
    (fillEntry u op T pname code locals kwargs e).code.isSome = true := by
  simp [fillEntry]

theorem register_multi_spec (u : TypeUtils)
    (hstrip : ∀ t, u.strip_qualifiers t = t)
    (hres : ∀ t, u.typedef_resolve t = none)
    (parms : List Parm) :
    ∀ (op code : String) (L K : List Parm) (s : Store),
    s.tm_scope < s.typemaps.length →
    (∀ p ∈ parms, ∃ nm, p.name = some nm ∧ nm ≠ "") →
    (∀ pre p post, parms = pre ++ p :: post →
        entryAtTop s p.type p.name ("tmap:" ++ encodeOp op pre) = none) →
    parms ≠ [] →
    ∃ last,
      parms.getLast? = some last ∧
      entryAtTop (Swig_typemap_register_multi u op parms code L K s) last.type last.name
          ("tmap:" ++ encodeOp op parms.dropLast)
        = some (fillEntry u (encodeOp op parms.dropLast) last.type last.name code L K
            Entry.empty) ∧
      (∀ pre p post, parms = pre ++ p :: post → post ≠ [] →
        entryAtTop (Swig_typemap_register_multi u op parms code L K s) p.type p.name
            ("tmap:" ++ encodeOp op pre) = some Entry.empty) ∧
      (∀ fuel nIn, Swig_typemap_search_multi u fuel
          (Swig_typemap_register_multi u op parms code L K s) op parms nIn
        = some (some (fillEntry u (encodeOp op parms.dropLast) last.type last.name code L K
            Entry.empty), parms.length)) := by
  induction parms with
  | nil =>
    intro op code L K s hok hnames hfresh hne
    exact absurd rfl hne
  | cons p np ih =>
    intro op code L K s hok hnames hfresh hne
    obtain ⟨nm, hnmEq, hnm0⟩ := hnames p (List.mem_cons_self p np)
    cases np with
    | nil =>
      refine ⟨p, rfl, ?_, ?_, ?_⟩
      · have hf := hfresh [] p [] rfl
        have h1 := entryAtTop_upd_self s p.type p.name (tmop_name op)
          (fillEntry u op p.type p.name code L K) hok
        rw [show ("tmap:" ++ encodeOp op [] : String) = tmop_name op from rfl] at hf
        rw [hf] at h1
        exact h1
      · intro pre q post hsplit hpost
        cases pre with
        | nil =>
          simp at hsplit
          rcases hsplit with ⟨_, h2⟩
          exact absurd h2 hpost
        | cons a pre' => simp at hsplit
      · intro fuel nIn
        have hf := hfresh [] p [] rfl
        have hE : entryAtTop
            (Swig_typemap_register_multi u op [p] code L K s) p.type p.name (tmop_name op)
            = some (fillEntry u op p.type p.name code L K Entry.empty) := by
          have h1 := entryAtTop_upd_self s p.type p.name (tmop_name op)
            (fillEntry u op p.type p.name code L K) hok
          rw [show ("tmap:" ++ encodeOp op [] : String) = tmop_name op from rfl] at hf
          rw [hf] at h1
          exact h1
        have hp : readScope (topScopeD (Swig_typemap_register_multi u op [p] code L K s))
            p.type (some nm) (tmop_name op)
            = some (fillEntry u op p.type p.name code L K Entry.empty) := by
          rw [← entryAtTop_eq_readScope, ← hnmEq]
          exact hE
        have hsearch := search_top_name_hit u fuel
          (Swig_typemap_register_multi u op [p] code L K s) op p.type nm
          (fillEntry u op p.type p.name code L K Entry.empty) hnm0 hp
          (fillEntry_code_isSome _ _ _ _ _ _ _ _)
        have hsm : Swig_typemap_search_multi u fuel
            (Swig_typemap_register_multi u op [p] code L K s) op [p] nIn
            = match Swig_typemap_search u fuel
                (Swig_typemap_register_multi u op [p] code L K s) op p.type p.name with
              | none => none
              | some none => some (none, nIn)
              | some (some tm) =>
                match Swig_typemap_search_multi u fuel
                    (Swig_typemap_register_multi u op [p] code L K s)
                    (op ++ "-" ++ p.type ++ "+" ++ nstr p.name ++ ":") [] nIn with
                | none => none
                | some (tm1, n') =>
                  let tm2 := tm1.getD tm
                  if tm2.code.isSome then some (some tm2, n' + 1) else some (none, n') :=
          rfl
        rw [hsm, hnmEq, hsearch]
        simp only [Swig_typemap_search_multi, Option.getD_some, Option.getD_none,
          fillEntry_code_isSome, if_true]
        rw [hnmEq]
        rfl
    | cons q t =>
      have hreg : Swig_typemap_register_multi u op (p :: q :: t) code L K s
          = Swig_typemap_register_multi u (op ++ "-" ++ p.type ++ "+" ++ nstr p.name ++ ":")
              (q :: t) code L K (updEntryTop s p.type p.name (tmop_name op) (fun e => e)) :=
        rfl
      have hok1 : (updEntryTop s p.type p.name (tmop_name op) (fun e => e)).tm_scope
          < (updEntryTop s p.type p.name (tmop_name op) (fun e => e)).typemaps.length := by
        rw [tm_scope_updEntryTop, length_updEntryTop]
        exact hok
      have hnames1 : ∀ r ∈ q :: t, ∃ nm', r.name = some nm' ∧ nm' ≠ "" := by
        intro r hr
        exact hnames r (List.mem_cons_of_mem p hr)
      have hfresh1 : ∀ pre r post, q :: t = pre ++ r :: post →
          entryAtTop (updEntryTop s p.type p.name (tmop_name op) (fun e => e)) r.type r.name
            ("tmap:" ++ encodeOp (op ++ "-" ++ p.type ++ "+" ++ nstr p.name ++ ":") pre)
            = none := by
        intro pre r post hsplit
        have hk : ("tmap:" ++ encodeOp (op ++ "-" ++ p.type ++ "+" ++ nstr p.name ++ ":") pre
            : String) ≠ tmop_name op := encodeOp_tail_key_ne op p pre
        rw [entryAtTop_upd_ne _ _ _ _ _ _ _ _ (Or.inr (Or.inr hk))]
        have h2 := hfresh (p :: pre) r post (by rw [hsplit]; rfl)
        rw [encodeOp_cons] at h2
        exact h2
      obtain ⟨last, hlast, hEat, hshell, hsm⟩ :=
        ih (op ++ "-" ++ p.type ++ "+" ++ nstr p.name ++ ":") code L K
          (updEntryTop s p.type p.name (tmop_name op) (fun e => e))
          hok1 hnames1 hfresh1 (by simp)
      have hshell0 : entryAtTop (Swig_typemap_register_multi u op (p :: q :: t) code L K s)
          p.type p.name (tmop_name op) = some Entry.empty := by
        rw [hreg]
        have hs1 : entryAtTop (updEntryTop s p.type p.name (tmop_name op) (fun e => e))
            p.type p.name (tmop_name op) = some Entry.empty := by
          have h1 := entryAtTop_upd_self s p.type p.name (tmop_name op) (fun e => e) hok
          have hf := hfresh [] p (q :: t) rfl
          rw [show ("tmap:" ++ encodeOp op [] : String) = tmop_name op from rfl] at hf
          rw [hf] at h1
          exact h1
        rw [register_frame u (q :: t) _ code L K _ p.type p.name (tmop_name op) ?hfr]
        · exact hs1
        case hfr =>
          intro pre r post hsplit
          exact Or.inl (encodeOp_tail_key_ne op p pre)
      refine ⟨last, ?_, ?_, ?_, ?_⟩
      · rw [show ((p :: q :: t).getLast? : Option Parm) = (q :: t).getLast? from rfl]
        exact hlast
      · rw [hreg]
        exact hEat
      · intro pre r post hsplit hpost
        cases pre with
        | nil =>
          simp only [List.nil_append] at hsplit
          injection hsplit with h1 h2
          subst h1
          exact hshell0
        | cons a pre' =>
          simp only [List.cons_append] at hsplit
          injection hsplit with h1 h2
          subst h1
          rw [hreg]
          have h3 := hshell pre' r post h2 hpost
          rw [encodeOp_cons]
          exact h3
      · intro fuel nIn
        have hp : readScope
            (topScopeD (Swig_typemap_register_multi u op (p :: q :: t) code L K s))
            p.type (some nm) (tmop_name op) = some Entry.empty := by
          rw [← entryAtTop_eq_readScope, ← hnmEq]
          exact hshell0
        obtain ⟨e0, hsearch⟩ := search_total_of_backstop u fuel
          (Swig_typemap_register_multi u op (p :: q :: t) code L K s) op p.type nm
          Entry.empty hnm0 hstrip hres hp
        rw [← hnmEq] at hsearch
        have hsmEq : Swig_typemap_search_multi u fuel
            (Swig_typemap_register_multi u op (p :: q :: t) code L K s) op (p :: q :: t) nIn
            = match Swig_typemap_search u fuel
                (Swig_typemap_register_multi u op (p :: q :: t) code L K s) op
                p.type p.name with
              | none => none
              | some none => some (none, nIn)
              | some (some tm) =>
                match Swig_typemap_search_multi u fuel
                    (Swig_typemap_register_multi u op (p :: q :: t) code L K s)
                    (op ++ "-" ++ p.type ++ "+" ++ nstr p.name ++ ":") (q :: t) nIn with
                | none => none
                | some (tm1, n') =>
                  let tm2 := tm1.getD tm
                  if tm2.code.isSome then some (some tm2, n' + 1) else some (none, n') :=
          rfl
        have hsm1 := hsm fuel nIn
        rw [hsmEq, hsearch]
        simp only [hreg, hsm1, Option.getD_some, fillEntry_code_isSome, if_true]
        rfl

theorem isPre_self_append (p b : List Char) : isPre p (p ++ b) = true := by
  induction p with
  | nil => rfl
  | cons c cs ih => simp [isPre, ih]

theorem replaceAllAux_fuel (pat rep : List Char) :
    ∀ f s, s.length ≤ f → replaceAllAux pat rep f s = replaceAllAux pat rep s.length s := by
  intro f
  induction f using Nat.strong_induction_on with
  | _ f ih =>
    intro s hs
    cases s with
    | nil => cases f <;> rfl
    | cons c rest =>
      cases f with
      | zero => simp at hs
      | succ f' =>
        rw [show replaceAllAux pat rep (f' + 1) (c :: rest)
            = if pat ≠ [] ∧ isPre pat (c :: rest) = true then
                let r := replaceAllAux pat rep f' ((c :: rest).drop pat.length)
                (rep ++ r.1, r.2 + 1)
              else
                let r := replaceAllAux pat rep f' rest
                (c :: r.1, r.2) from rfl]
        rw [show replaceAllAux pat rep (c :: rest).length (c :: rest)
            = if pat ≠ [] ∧ isPre pat (c :: rest) = true then
                let r := replaceAllAux pat rep rest.length ((c :: rest).drop pat.length)
                (rep ++ r.1, r.2 + 1)
              else
                let r := replaceAllAux pat rep rest.length rest
                (c :: r.1, r.2) from rfl]
        have hsl : rest.length + 1 ≤ f' + 1 := by simpa using hs
        by_cases hcond : pat ≠ [] ∧ isPre pat (c :: rest) = true
        · rw [if_pos hcond, if_pos hcond]
          have hp : 0 < pat.length := List.length_pos.mpr hcond.1
          have hlen : ((c :: rest).drop pat.length).length ≤ f' := by
            simp only [List.length_drop, List.length_cons]
            omega
          have hlen2 : ((c :: rest).drop pat.length).length ≤ rest.length := by
            simp only [List.length_drop, List.length_cons]
            omega
          rw [ih f' (by omega) _ hlen]
          rw [ih rest.length (by omega) _ hlen2]
        · rw [if_neg hcond, if_neg hcond]
          rw [ih f' (by omega) rest (by omega)]

theorem replaceAll_cons (pat rep : List Char) (c : Char) (rest : List Char) :
    replaceAll pat rep (c :: rest)
      = if pat ≠ [] ∧ isPre pat (c :: rest) = true then
          let r := replaceAll pat rep ((c :: rest).drop pat.length)
          (rep ++ r.1, r.2 + 1)
        else
          let r := replaceAll pat rep rest
          (c :: r.1, r.2) := by
  unfold replaceAll
  rw [show replaceAllAux pat rep (c :: rest).length (c :: rest)
      = if pat ≠ [] ∧ isPre pat (c :: rest) = true then
          let r := replaceAllAux pat rep rest.length ((c :: rest).drop pat.length)
          (rep ++ r.1, r.2 + 1)
        else
          let r := replaceAllAux pat rep rest.length rest
          (c :: r.1, r.2) from rfl]
  by_cases hcond : pat ≠ [] ∧ isPre pat (c :: rest) = true
  · rw [if_pos hcond, if_pos hcond]
    have hp : 0 < pat.length := List.length_pos.mpr hcond.1
    rw [replaceAllAux_fuel pat rep rest.length ((c :: rest).drop pat.length)
      (by simp only [List.length_drop, List.length_cons]; omega)]
  · rw [if_neg hcond, if_neg hcond]

theorem replaceAll_nd (p rep : List Char) (s : List Char) (hs : '$' ∉ s) :
    replaceAll ('$' :: p) rep s = (s, 0) := by
  induction s with
  | nil => rfl
  | cons c rest ih =>
    have hc : ¬ ('$' = c) := fun he => hs (he ▸ List.mem_cons_self c rest)
    have hcond : ¬ (('$' :: p) ≠ [] ∧ isPre ('$' :: p) (c :: rest) = true) := by
      simp [isPre, hc]
    rw [replaceAll_cons, if_neg hcond]
    have ih' := ih (fun hm => hs (List.mem_cons_of_mem c hm))
    simp [ih']

theorem replaceAll_ctx_miss (p rep a q b : List Char)
    (ha : '$' ∉ a) (hq : '$' ∉ q) (hb : '$' ∉ b)
    (hm : isPre p (q ++ b) = false) :
    replaceAll ('$' :: p) rep (a ++ '$' :: (q ++ b)) = (a ++ '$' :: (q ++ b), 0) := by
  induction a with
  | nil =>
    simp only [List.nil_append]
    have hcond : ¬ (('$' :: p) ≠ [] ∧ isPre ('$' :: p) ('$' :: (q ++ b)) = true) := by
      simp [isPre, hm]
    rw [replaceAll_cons, if_neg hcond]
    have hqb : '$' ∉ q ++ b := by
      intro hmem
      rcases List.mem_append.mp hmem with h | h
      · exact hq h
      · exact hb h
    simp [replaceAll_nd p rep (q ++ b) hqb]
  | cons c cs ih =>
    have hc : ¬ ('$' = c) := fun he => ha (he ▸ List.mem_cons_self c cs)
    have hcond : ¬ (('$' :: p) ≠ []
        ∧ isPre ('$' :: p) (c :: (cs ++ '$' :: (q ++ b))) = true) := by
      simp [isPre, hc]
    have ha' : '$' ∉ cs := fun hm2 => ha (List.mem_cons_of_mem c hm2)
    rw [show ((c :: cs) ++ '$' :: (q ++ b) : List Char) = c :: (cs ++ '$' :: (q ++ b))
      from rfl]
    rw [replaceAll_cons, if_neg hcond]
    simp [ih ha']

theorem replaceAll_ctx_hit (p rep a b : List Char)
    (ha : '$' ∉ a) (hb : '$' ∉ b) :
    replaceAll ('$' :: p) rep (a ++ '$' :: (p ++ b)) = (a ++ rep ++ b, 1) := by
  induction a with
  | nil =>
    simp only [List.nil_append]
    have hcond : (('$' :: p) ≠ [] ∧ isPre ('$' :: p) ('$' :: (p ++ b)) = true) := by
      simp [isPre, isPre_self_append]
    rw [replaceAll_cons, if_pos hcond]
    have hdrop : (('$' :: (p ++ b)).drop ('$' :: p).length : List Char) = b := by
      simp only [List.length_cons, List.drop_succ_cons]
      exact List.drop_left p b
    rw [hdrop]
    simp [replaceAll_nd p rep b hb]
  | cons c cs ih =>
    have hc : ¬ ('$' = c) := fun he => ha (he ▸ List.mem_cons_self c cs)
    have hcond : ¬ (('$' :: p) ≠ []
        ∧ isPre ('$' :: p) (c :: (cs ++ '$' :: (p ++ b))) = true) := by
      simp [isPre, hc]
    have ha' : '$' ∉ cs := fun hm2 => ha (List.mem_cons_of_mem c hm2)
    rw [show ((c :: cs) ++ '$' :: (p ++ b) : List Char) = c :: (cs ++ '$' :: (p ++ b))
      from rfl]
    rw [replaceAll_cons, if_neg hcond]
    simp [ih ha']

theorem hasSub_of_mid (pat x y : List Char) (hp : pat ≠ []) :
    hasSub pat (x ++ pat ++ y) = true := by
  induction x with
  | nil =>
    cases pat with
    | nil => exact absurd rfl hp
    | cons c cs =>
      simp only [List.nil_append]
      rw [show ((c :: cs) ++ y : List Char) = c :: (cs ++ y) from rfl]
      rw [hasSub]
      refine Bool.or_eq_true_iff.mpr (Or.inl ?_)
      rw [show (c :: (cs ++ y) : List Char) = (c :: cs) ++ y from rfl]
      exact isPre_self_append _ _
  | cons c cs ih =>
    rw [show ((c :: cs) ++ pat ++ y : List Char) = c :: (cs ++ pat ++ y) from rfl]
    rw [hasSub]
    refine Bool.or_eq_true_iff.mpr (Or.inr ?_)
    exact ih

theorem sanitizeChar_ne_dollar (c : Char) : ¬ (sanitizeChar c = '$') := by
  unfold sanitizeChar
  by_cases h : c.isAlphanum
  · rw [if_pos h]
    intro he
    rw [he] at h
    exact absurd h (by decide)
  · rw [if_neg h]
    decide

theorem modelUtils_mangle_nd (t : String) : '$' ∉ (modelUtils.manglestr t).data := by
  intro hmem
  have : (modelUtils.manglestr t).data = '_' :: t.data.map sanitizeChar := rfl
  rw [this] at hmem
  rcases List.mem_cons.mp hmem with h | h
  · exact absurd h (by decide)
  · rcases List.mem_map.mp h with ⟨c, _, hc⟩
    exact sanitizeChar_ne_dollar c hc

theorem isPre_desc_head (c : Char) (cs b : List Char) (hc : ¬ (c = 'd')) :
    isPre (c :: cs) ("descriptor".data ++ b) = false := by
  rw [show ("descriptor".data ++ b : List Char) = 'd' :: ("escriptor".data ++ b) from rfl]
  simp [isPre, hc]

theorem isPre_desc_dim (cs b : List Char) :
    isPre ('d' :: 'i' :: cs) ("descriptor".data ++ b) = false := by
  rw [show ("descriptor".data ++ b : List Char) = 'd' :: 'e' :: ("scriptor".data ++ b)
    from rfl]
  simp [isPre]

theorem rvLocals_nil (st : RVState) (p rep : List Char) (h : st.locs = []) :
    rvLocals st p rep = st := by
  obtain ⟨s, locs, rems⟩ := st
  simp only at h
  subst h
  simp [rvLocals]

theorem rvReplace_nd (st : RVState) (p rep : List Char) (h : '$' ∉ st.s) :
    rvReplace st ('$' :: p) rep = st := by
  obtain ⟨s, locs, rems⟩ := st
  simp only at h
  simp [rvReplace, replaceAll_nd p rep s h]

theorem rvReplaceRem_nd (st : RVState) (p rep : List Char) (t : String)
    (h : '$' ∉ st.s) : rvReplaceRem st ('$' :: p) rep t = st := by
  obtain ⟨s, locs, rems⟩ := st
  simp only at h
  simp [rvReplaceRem, replaceAll_nd p rep s h]

theorem rvBoth_nd (st : RVState) (p rep : List Char) (h : '$' ∉ st.s)
    (h2 : st.locs = []) : rvBoth st ('$' :: p) rep = st := by
  rw [rvBoth, rvReplace_nd st p rep h]
  exact rvLocals_nil st _ _ h2

theorem ctx_rvReplace (a b p rep : List Char) (L : List Parm) (R : List String)
    (ha : '$' ∉ a) (hb : '$' ∉ b)
    (hm : isPre p ("descriptor".data ++ b) = false) :
    rvReplace ⟨a ++ '$' :: ("descriptor".data ++ b), L, R⟩ ('$' :: p) rep
      = ⟨a ++ '$' :: ("descriptor".data ++ b), L, R⟩ := by
  have h := replaceAll_ctx_miss p rep a "descriptor".data b ha (by decide) hb hm
  unfold rvReplace
  rw [h]

theorem ctx_rvReplaceRem (a b p rep : List Char) (L : List Parm) (R : List String)
    (t : String) (ha : '$' ∉ a) (hb : '$' ∉ b)
    (hm : isPre p ("descriptor".data ++ b) = false) :
    rvReplaceRem ⟨a ++ '$' :: ("descriptor".data ++ b), L, R⟩ ('$' :: p) rep t
      = ⟨a ++ '$' :: ("descriptor".data ++ b), L, R⟩ := by
  have h := replaceAll_ctx_miss p rep a "descriptor".data b ha (by decide) hb hm
  unfold rvReplaceRem
  rw [h]
  rfl

theorem ctx_rvBoth (a b p rep : List Char) (R : List String)
    (ha : '$' ∉ a) (hb : '$' ∉ b)
    (hm : isPre p ("descriptor".data ++ b) = false) :
    rvBoth ⟨a ++ '$' :: ("descriptor".data ++ b), [], R⟩ ('$' :: p) rep
      = ⟨a ++ '$' :: ("descriptor".data ++ b), [], R⟩ := by
  rw [rvBoth, ctx_rvReplace a b p rep [] R ha hb hm]
  exact rvLocals_nil _ _ _ rfl

theorem ctx_rvReplaceRem_hit (a b rep : List Char) (L : List Parm) (R : List String)
    (t : String) (ha : '$' ∉ a) (hb : '$' ∉ b) :
    rvReplaceRem ⟨a ++ '$' :: ("descriptor".data ++ b), L, R⟩
        ('$' :: "descriptor".data) rep t
      = ⟨a ++ rep ++ b, L, R ++ [t]⟩ := by
  have h := replaceAll_ctx_hit "descriptor".data rep a b ha hb
  unfold rvReplaceRem
  rw [h]
  rfl

theorem isPre_desc_headOpt (p b : List Char) (c : Char)
    (h : p.head? = some c) (hc : ¬ (c = 'd')) :
    isPre p ("descriptor".data ++ b) = false := by
  cases p with
  | nil => simp at h
  | cons x xs =>
    simp at h
    exact isPre_desc_head x xs b (by rw [h]; exact hc)

theorem isPre_desc_secondOpt (p b : List Char) (c : Char)
    (h1 : p.head? = some 'd') (h2 : p.tail.head? = some c) (hc : ¬ (c = 'e')) :
    isPre p ("descriptor".data ++ b) = false := by
  cases p with
  | nil => simp at h1
  | cons x xs =>
    simp at h1
    subst h1
    cases xs with
    | nil => simp at h2
    | cons y ys =>
      simp at h2
      subst h2
      rw [show ("descriptor".data ++ b : List Char) = 'd' :: 'e' :: ("scriptor".data ++ b)
        from rfl]
      simp [isPre, hc]

theorem dim_pat_head (i : Nat) :
    (("dim" ++ toString i).data : List Char).head? = some 'd' := by
  rw [String.data_append]
  rfl

theorem dim_pat_second (i : Nat) :
    (("dim" ++ toString i).data : List Char).tail.head? = some 'i' := by
  rw [String.data_append]
  rfl

theorem varP1_pat_head (X : List Char) :
    (((toString (1 : Nat)).data ++ ['_'] ++ X) : List Char).head? = some '1' := by
  rfl

theorem rvDimStep_ctx (u : TypeUtils) (T : String) (a b : List Char) (R : List String)
    (i : Nat) (ha : '$' ∉ a) (hb : '$' ∉ b) :
    rvDimStep u T 1 ('$' :: (toString 1).data ++ ['_'])
        ⟨a ++ '$' :: ("descriptor".data ++ b), [], R⟩ i
      = ⟨a ++ '$' :: ("descriptor".data ++ b), [], R⟩ := by
  show rvBoth (if (1 : Nat) = 1
      then rvBoth ⟨a ++ '$' :: ("descriptor".data ++ b), [], R⟩
        ('$' :: ("dim" ++ toString i).data) (u.array_getdim T i).data
      else ⟨a ++ '$' :: ("descriptor".data ++ b), [], R⟩)
    ('$' :: ((toString 1).data ++ ['_'] ++ ("dim" ++ toString i).data))
    (u.array_getdim T i).data
    = ⟨a ++ '$' :: ("descriptor".data ++ b), [], R⟩
  rw [if_pos rfl]
  rw [ctx_rvBoth a b _ _ R ha hb
    (isPre_desc_secondOpt _ b 'i' (dim_pat_head i) (dim_pat_second i) (by decide))]
  rw [ctx_rvBoth a b _ _ R ha hb (isPre_desc_headOpt _ b '1' (varP1_pat_head _) (by decide))]

theorem rvDims_ctx (u : TypeUtils) (T : String) (a b : List Char) (R : List String)
    (ha : '$' ∉ a) (hb : '$' ∉ b) :
    rvDims u T 1 ('$' :: (toString 1).data ++ ['_'])
        ⟨a ++ '$' :: ("descriptor".data ++ b), [], R⟩
      = ⟨a ++ '$' :: ("descriptor".data ++ b), [], R⟩ := by
  unfold rvDims
  by_cases hia : u.isarray T = true
  · rw [if_pos hia]
    generalize List.range (u.array_ndim T) = IL
    induction IL with
    | nil => rfl
    | cons i L2 ihL =>
      rw [List.foldl_cons, rvDimStep_ctx u T a b R i ha hb]
      exact ihL
  · rw [if_neg hia]

theorem rvTypeBlock_ctx (u : TypeUtils) (T : String) (a b : List Char) (R : List String)
    (ha : '$' ∉ a) (hb : '$' ∉ b) :
    rvTypeBlock u T 1 ('$' :: (toString 1).data ++ ['_'])
        ⟨a ++ '$' :: ("descriptor".data ++ b), [], R⟩
      = ⟨a ++ '$' :: ("descriptor".data ++ b), [], R⟩ := by
  unfold rvTypeBlock
  split
  · show rvLocals (rvReplace (if (1 : Nat) = 1
        then rvLocals (rvReplace ⟨a ++ '$' :: ("descriptor".data ++ b), [], R⟩
            ('$' :: "type".data) (u.str T none).data) ('$' :: "type".data) T.data
        else ⟨a ++ '$' :: ("descriptor".data ++ b), [], R⟩)
        ('$' :: ((toString 1).data ++ ['_'] ++ "type".data)) (u.str T none).data)
      ('$' :: ((toString 1).data ++ ['_'] ++ "type".data)) T.data
      = ⟨a ++ '$' :: ("descriptor".data ++ b), [], R⟩
    rw [if_pos rfl]
    rw [ctx_rvReplace a b "type".data (u.str T none).data [] R ha hb
      (isPre_desc_headOpt "type".data b 't' rfl (by decide))]
    rw [rvLocals_nil ⟨a ++ '$' :: ("descriptor".data ++ b), [], R⟩
      ('$' :: "type".data) T.data rfl]
    rw [ctx_rvReplace a b ((toString 1).data ++ ['_'] ++ "type".data) (u.str T none).data
      [] R ha hb (isPre_desc_headOpt ((toString 1).data ++ ['_'] ++ "type".data) b '1'
        (varP1_pat_head _) (by decide))]
    rw [rvLocals_nil ⟨a ++ '$' :: ("descriptor".data ++ b), [], R⟩
      ('$' :: ((toString 1).data ++ ['_'] ++ "type".data)) T.data rfl]
  · rfl

theorem rvLtypeBlock_ctx (u : TypeUtils) (T : String) (a b : List Char) (R : List String)
    (ha : '$' ∉ a) (hb : '$' ∉ b) :
    rvLtypeBlock u T 1 ('$' :: (toString 1).data ++ ['_'])
        ⟨a ++ '$' :: ("descriptor".data ++ b), [], R⟩
      = ⟨a ++ '$' :: ("descriptor".data ++ b), [], R⟩ := by
  unfold rvLtypeBlock
  split
  · show rvLocals (rvReplace (if (1 : Nat) = 1
        then rvLocals (rvReplace ⟨a ++ '$' :: ("descriptor".data ++ b), [], R⟩
            ('$' :: "ltype".data) (u.str (u.ltype T) none).data)
            ('$' :: "ltype".data) (u.ltype T).data
        else ⟨a ++ '$' :: ("descriptor".data ++ b), [], R⟩)
        ('$' :: ((toString 1).data ++ ['_'] ++ "ltype".data)) (u.str (u.ltype T) none).data)
      ('$' :: ((toString 1).data ++ ['_'] ++ "ltype".data)) (u.ltype T).data
      = ⟨a ++ '$' :: ("descriptor".data ++ b), [], R⟩
    rw [if_pos rfl]
    rw [ctx_rvReplace a b "ltype".data (u.str (u.ltype T) none).data [] R ha hb
      (isPre_desc_headOpt "ltype".data b 'l' rfl (by decide))]
    rw [rvLocals_nil ⟨a ++ '$' :: ("descriptor".data ++ b), [], R⟩
      ('$' :: "ltype".data) (u.ltype T).data rfl]
    rw [ctx_rvReplace a b ((toString 1).data ++ ['_'] ++ "ltype".data)
      (u.str (u.ltype T) none).data [] R ha hb
      (isPre_desc_headOpt ((toString 1).data ++ ['_'] ++ "ltype".data) b '1'
        (varP1_pat_head _) (by decide))]
    rw [rvLocals_nil ⟨a ++ '$' :: ("descriptor".data ++ b), [], R⟩
      ('$' :: ((toString 1).data ++ ['_'] ++ "ltype".data)) (u.ltype T).data rfl]
  · rfl

theorem rvMangleBlock_ctx (u : TypeUtils) (T : String) (a b : List Char)
    (ha : '$' ∉ a) (hb : '$' ∉ b) (hmg : '$' ∉ (u.manglestr T).data) :
    rvMangleBlock u T 1 ('$' :: (toString 1).data ++ ['_'])
        ⟨a ++ '$' :: ("descriptor".data ++ b), [], []⟩
      = ⟨a ++ ("SWIGTYPE".data ++ (u.manglestr T).data) ++ b, [], [T]⟩ := by
  unfold rvMangleBlock
  rw [if_pos ?hg]
  case hg =>
    refine Bool.or_eq_true_iff.mpr (Or.inr ?_)
    show hasSub "descriptor".data (a ++ '$' :: ("descriptor".data ++ b)) = true
    rw [show (a ++ '$' :: ("descriptor".data ++ b) : List Char)
      = (a ++ ['$']) ++ "descriptor".data ++ b from by simp]
    exact hasSub_of_mid _ _ _ (by decide)
  show rvReplaceRem (if (1 : Nat) = 1
      then rvReplaceRem (rvReplace (if (1 : Nat) = 1
          then rvReplace ⟨a ++ '$' :: ("descriptor".data ++ b), [], []⟩
              ('$' :: "mangle".data) (u.manglestr T).data
          else ⟨a ++ '$' :: ("descriptor".data ++ b), [], []⟩)
          ('$' :: ((toString 1).data ++ ['_'] ++ "mangle".data)) (u.manglestr T).data)
        ('$' :: "descriptor".data) ("SWIGTYPE".data ++ (u.manglestr T).data) T
      else rvReplace (if (1 : Nat) = 1
          then rvReplace ⟨a ++ '$' :: ("descriptor".data ++ b), [], []⟩
              ('$' :: "mangle".data) (u.manglestr T).data
          else ⟨a ++ '$' :: ("descriptor".data ++ b), [], []⟩)
          ('$' :: ((toString 1).data ++ ['_'] ++ "mangle".data)) (u.manglestr T).data)
    ('$' :: ((toString 1).data ++ ['_'] ++ "descriptor".data))
    ("SWIGTYPE".data ++ (u.manglestr T).data) T
    = ⟨a ++ ("SWIGTYPE".data ++ (u.manglestr T).data) ++ b, [], [T]⟩
  rw [if_pos rfl, if_pos rfl]
  rw [ctx_rvReplace a b "mangle".data (u.manglestr T).data [] [] ha hb
    (isPre_desc_headOpt "mangle".data b 'm' rfl (by decide))]
  rw [ctx_rvReplace a b ((toString 1).data ++ ['_'] ++ "mangle".data) (u.manglestr T).data
    [] [] ha hb (isPre_desc_headOpt ((toString 1).data ++ ['_'] ++ "mangle".data) b '1'
      (varP1_pat_head _) (by decide))]
  rw [ctx_rvReplaceRem_hit a b ("SWIGTYPE".data ++ (u.manglestr T).data) [] [] T ha hb]
  have hde : '$' ∉ ("SWIGTYPE".data ++ (u.manglestr T).data : List Char) := by
    intro hm2
    rcases List.mem_append.mp hm2 with h | h
    · exact absurd h (by decide)
    · exact hmg h
  have hs2 : '$' ∉ (a ++ ("SWIGTYPE".data ++ (u.manglestr T).data) ++ b : List Char) := by
    intro hm2
    rcases List.mem_append.mp hm2 with h | h
    · rcases List.mem_append.mp h with h | h
      · exact ha h
      · exact hde h
    · exact hb h
  rw [rvReplaceRem_nd _ _ _ _ hs2]
  rfl

theorem rvDimStep_nd (u : TypeUtils) (T : String) (st : RVState) (i : Nat)
    (h : '$' ∉ st.s) (h2 : st.locs = []) :
    rvDimStep u T 1 ('$' :: (toString 1).data ++ ['_']) st i = st := by
  show rvBoth (if (1 : Nat) = 1
      then rvBoth st ('$' :: ("dim" ++ toString i).data) (u.array_getdim T i).data
      else st)
    ('$' :: ((toString 1).data ++ ['_'] ++ ("dim" ++ toString i).data))
    (u.array_getdim T i).data = st
  rw [if_pos rfl]
  rw [rvBoth_nd st _ _ h h2]
  rw [rvBoth_nd st _ _ h h2]

theorem rvDims_nd (u : TypeUtils) (T : String) (st : RVState)
    (h : '$' ∉ st.s) (h2 : st.locs = []) :
    rvDims u T 1 ('$' :: (toString 1).data ++ ['_']) st = st := by
  unfold rvDims
  split
  · generalize List.range (u.array_ndim T) = IL
    induction IL with
    | nil => rfl
    | cons i L2 ihL =>
      rw [List.foldl_cons, rvDimStep_nd u T st i h h2]
      exact ihL
  · rfl

theorem rvTypeBlock_nd (u : TypeUtils) (T : String) (st : RVState)
    (h : '$' ∉ st.s) (h2 : st.locs = []) :
    rvTypeBlock u T 1 ('$' :: (toString 1).data ++ ['_']) st = st := by
  have A : ∀ p rep, rvReplace st ('$' :: p) rep = st := fun p rep => rvReplace_nd st p rep h
  have B : ∀ p rep, rvLocals st p rep = st := fun p rep => rvLocals_nil st p rep h2
  simp only [rvTypeBlock, List.cons_append, A, B, ite_self, if_true]

theorem rvLtypeBlock_nd (u : TypeUtils) (T : String) (st : RVState)
    (h : '$' ∉ st.s) (h2 : st.locs = []) :
    rvLtypeBlock u T 1 ('$' :: (toString 1).data ++ ['_']) st = st := by
  have A : ∀ p rep, rvReplace st ('$' :: p) rep = st := fun p rep => rvReplace_nd st p rep h
  have B : ∀ p rep, rvLocals st p rep = st := fun p rep => rvLocals_nil st p rep h2
  simp only [rvLtypeBlock, List.cons_append, A, B, ite_self, if_true]

theorem rvMangleBlock_nd (u : TypeUtils) (T : String) (st : RVState)
    (h : '$' ∉ st.s) :
    rvMangleBlock u T 1 ('$' :: (toString 1).data ++ ['_']) st = st := by
  have A : ∀ p rep, rvReplace st ('$' :: p) rep = st := fun p rep => rvReplace_nd st p rep h
  have C : ∀ p rep t, rvReplaceRem st ('$' :: p) rep t = st :=
    fun p rep t => rvReplaceRem_nd st p rep t h
  simp only [rvMangleBlock, List.cons_append, A, C, ite_self, if_true]

theorem rvStarBlock_nd (u : TypeUtils) (T : String) (st : RVState)
    (h : '$' ∉ st.s) (h2 : st.locs = []) :
    rvStarBlock u T 1 st = st := by
  have A : ∀ p rep, rvReplace st ('$' :: p) rep = st := fun p rep => rvReplace_nd st p rep h
  have B : ∀ p rep, rvLocals st p rep = st := fun p rep => rvLocals_nil st p rep h2
  have C : ∀ p rep t, rvReplaceRem st ('$' :: p) rep t = st :=
    fun p rep t => rvReplaceRem_nd st p rep t h
  simp only [rvStarBlock, List.cons_append, A, B, C, ite_self, if_true]

theorem rvAmpBlock_nd (u : TypeUtils) (T : String) (st : RVState)
    (h : '$' ∉ st.s) (h2 : st.locs = []) :
    rvAmpBlock u T 1 st = st := by
  have A : ∀ p rep, rvReplace st ('$' :: p) rep = st := fun p rep => rvReplace_nd st p rep h
  have B : ∀ p rep, rvLocals st p rep = st := fun p rep => rvLocals_nil st p rep h2
  have C : ∀ p rep t, rvReplaceRem st ('$' :: p) rep t = st :=
    fun p rep t => rvReplaceRem_nd st p rep t h
  simp only [rvAmpBlock, List.cons_append, A, B, C, ite_self, if_true]

theorem rvBaseBlock_nd (u : TypeUtils) (T : String) (st : RVState)
    (h : '$' ∉ st.s) (h2 : st.locs = []) :
    rvBaseBlock u T 1 ('$' :: (toString 1).data ++ ['_']) st = st := by
  have A : ∀ p rep, rvReplace st ('$' :: p) rep = st := fun p rep => rvReplace_nd st p rep h
  have B : ∀ p rep, rvLocals st p rep = st := fun p rep => rvLocals_nil st p rep h2
  have D : ∀ p rep, rvBoth st ('$' :: p) rep = st := fun p rep => rvBoth_nd st p rep h h2
  simp only [rvBaseBlock, List.cons_append, A, B, D, ite_self, if_true]

theorem replace_vars_descriptor (T pn ln : String) (a b : List Char)
    (ha : '$' ∉ a) (hb : '$' ∉ b) :
    typemap_replace_vars modelUtils (a ++ '$' :: ("descriptor".data ++ b)) [] T
        (some pn) ln 1
      = ⟨a ++ ("SWIGTYPE".data ++ (modelUtils.manglestr T).data) ++ b, [], [T]⟩ := by
  show rvReplace
      (rvBaseBlock modelUtils T 1 ('$' :: (toString 1).data ++ ['_'])
        (rvAmpBlock modelUtils T 1
          (rvStarBlock modelUtils T 1
            (rvMangleBlock modelUtils T 1 ('$' :: (toString 1).data ++ ['_'])
              (rvLtypeBlock modelUtils T 1 ('$' :: (toString 1).data ++ ['_'])
                (rvTypeBlock modelUtils T 1 ('$' :: (toString 1).data ++ ['_'])
                  (rvReplace
                    (rvReplace
                      (rvDims modelUtils T 1 ('$' :: (toString 1).data ++ ['_'])
                        ⟨a ++ '$' :: ("descriptor".data ++ b), [], []⟩)
                      ('$' :: "parmname".data) pn.data)
                    ('$' :: ((toString 1).data ++ ['_'] ++ "name".data)) pn.data)))))))
      ('$' :: (toString 1).data) ln.data
    = ⟨a ++ ("SWIGTYPE".data ++ (modelUtils.manglestr T).data) ++ b, [], [T]⟩
  rw [rvDims_ctx modelUtils T a b [] ha hb]
  rw [ctx_rvReplace a b "parmname".data pn.data [] [] ha hb
    (isPre_desc_headOpt "parmname".data b 'p' rfl (by decide))]
  rw [ctx_rvReplace a b ((toString 1).data ++ ['_'] ++ "name".data) pn.data [] [] ha hb
    (isPre_desc_headOpt ((toString 1).data ++ ['_'] ++ "name".data) b '1'
      (varP1_pat_head _) (by decide))]
  rw [rvTypeBlock_ctx modelUtils T a b [] ha hb]
  rw [rvLtypeBlock_ctx modelUtils T a b [] ha hb]
  rw [rvMangleBlock_ctx modelUtils T a b ha hb (modelUtils_mangle_nd T)]
  have hN : '$' ∉ ((⟨a ++ ("SWIGTYPE".data ++ (modelUtils.manglestr T).data) ++ b, [], [T]⟩
      : RVState)).s := by
    intro hm2
    rcases List.mem_append.mp hm2 with h | h
    · rcases List.mem_append.mp h with h | h
      · exact ha h
      · rcases List.mem_append.mp h with h | h
        · exact absurd h (by decide)
        · exact modelUtils_mangle_nd T h
    · exact hb h
  rw [rvStarBlock_nd modelUtils T _ hN rfl]
  rw [rvAmpBlock_nd modelUtils T _ hN rfl]
  rw [rvBaseBlock_nd modelUtils T _ hN rfl]
  rw [rvReplace_nd _ _ _ hN]

theorem replace_vars_no_dollar (T pn ln : String) (s : List Char) (hs : '$' ∉ s) :
    typemap_replace_vars modelUtils s [] T (some pn) ln 1 = ⟨s, [], []⟩ := by
  show rvReplace
      (rvBaseBlock modelUtils T 1 ('$' :: (toString 1).data ++ ['_'])
        (rvAmpBlock modelUtils T 1
          (rvStarBlock modelUtils T 1
            (rvMangleBlock modelUtils T 1 ('$' :: (toString 1).data ++ ['_'])
              (rvLtypeBlock modelUtils T 1 ('$' :: (toString 1).data ++ ['_'])
                (rvTypeBlock modelUtils T 1 ('$' :: (toString 1).data ++ ['_'])
                  (rvReplace
                    (rvReplace
                      (rvDims modelUtils T 1 ('$' :: (toString 1).data ++ ['_'])
                        ⟨s, [], []⟩)
                      ('$' :: "parmname".data) pn.data)
                    ('$' :: ((toString 1).data ++ ['_'] ++ "name".data)) pn.data)))))))
      ('$' :: (toString 1).data) ln.data
    = ⟨s, [], []⟩
  rw [rvDims_nd modelUtils T ⟨s, [], []⟩ hs rfl]
  rw [rvReplace_nd ⟨s, [], []⟩ "parmname".data pn.data hs]
  rw [rvReplace_nd ⟨s, [], []⟩ ((toString 1).data ++ ['_'] ++ "name".data) pn.data hs]
  rw [rvTypeBlock_nd modelUtils T ⟨s, [], []⟩ hs rfl]
  rw [rvLtypeBlock_nd modelUtils T ⟨s, [], []⟩ hs rfl]
  rw [rvMangleBlock_nd modelUtils T ⟨s, [], []⟩ hs]
  rw [rvStarBlock_nd modelUtils T ⟨s, [], []⟩ hs rfl]
  rw [rvAmpBlock_nd modelUtils T ⟨s, [], []⟩ hs rfl]
  rw [rvBaseBlock_nd modelUtils T ⟨s, [], []⟩ hs rfl]
  rw [rvReplace_nd ⟨s, [], []⟩ ((toString 1).data) ln.data hs]

/-- C5: the claim says Swig_typemap_new_scope fails with a report when the
push would exceed the MAX_SCOPE limit of 32 and that the scope stack never
holds more than 32 scopes.  The code has no such check: the scope counter is
incremented unconditionally, and after 32 pushes from a fresh store it equals
32, so the stack holds 33 scopes and the write typemaps[32] lands past the
end of the MAX_SCOPE-sized array. -/
theorem c5_new_scope_unchecked :
    (∀ s : Store, (Swig_typemap_new_scope s).tm_scope = s.tm_scope + 1) ∧
    (Swig_typemap_new_scope^[32] Swig_typemap_init).tm_scope + 1 = 33 ∧
    MAX_SCOPE = 32 := by
  refine ⟨fun s => rfl, ?_, rfl⟩
  decide

/-- C6: after registering an except handler string and pushing a fresh scope,
Swig_except_lookup returns NULL even though scope 0 still holds the string:
the scan loop reads typemaps[tm_scope] on every iteration (typemap.c line
1078) instead of walking the scopes downward as the claim states. -/
theorem c6_except_lookup_stuck_at_top :
    Swig_except_lookup (Swig_typemap_new_scope (Swig_except_register "x" Swig_typemap_init))
      = none ∧
    (scopeAt (Swig_typemap_new_scope (Swig_except_register "x" Swig_typemap_init)) 0).bind
        (fun sc => sc.exceptStr) = some "x" := by
  exact ⟨rfl, rfl⟩

/-- C7: Swig_typemap_pop_scope removes and returns the top scope when the
depth is positive, returns NULL and leaves the store unchanged at depth 0,
and no sequence of pops ever removes the bottom scope. -/
theorem c7_pop_scope_spec (s : Store) :
    (0 < s.tm_scope →
      Swig_typemap_pop_scope s
        = (scopeAt s s.tm_scope, { s with tm_scope := s.tm_scope - 1 })) ∧
    (s.tm_scope = 0 → Swig_typemap_pop_scope s = (none, s)) ∧
    (∀ n, scopeAt ((fun st => (Swig_typemap_pop_scope st).2)^[n] s) 0 = scopeAt s 0) := by
  refine ⟨?_, ?_, ?_⟩
  · intro h
    simp [Swig_typemap_pop_scope, h]
  · intro h
    simp [Swig_typemap_pop_scope, h]
  · intro n
    have hstep : ∀ st : Store, scopeAt (Swig_typemap_pop_scope st).2 0 = scopeAt st 0 := by
      intro st
      unfold Swig_typemap_pop_scope
      split <;> rfl
    induction n with
    | zero => rfl
    | succ m ih =>
      rw [Function.iterate_succ_apply', hstep, ih]

/-- C7 witness: popping the store after a single push returns the pushed
scope and restores depth 0. -/
theorem c7_witness :
    Swig_typemap_pop_scope (Swig_typemap_new_scope Swig_typemap_init)
      = (scopeAt (Swig_typemap_new_scope Swig_typemap_init) 1,
         { Swig_typemap_new_scope Swig_typemap_init with tm_scope := 0 }) :=
  (c7_pop_scope_spec (Swig_typemap_new_scope Swig_typemap_init)).1 (by decide)

/-- C8: Swig_typemap_copy_multi with source and destination parameter lists
of different lengths returns -1 and leaves the whole store unchanged. -/
theorem c8_copy_arity_mismatch (u : TypeUtils) (op : String) (srcparms parms : List Parm)
    (s : Store) (h : parms.length ≠ srcparms.length) :
    Swig_typemap_copy_multi u op srcparms parms s = (-1, s) := by
  unfold Swig_typemap_copy_multi
  rw [if_pos h]

/-- C8 witness: copying a one-parameter signature onto a two-parameter one
fails with -1 and the fresh store untouched. -/
theorem c8_witness :
    Swig_typemap_copy_multi modelUtils "in" [{ type := "int" }]
        [{ type := "int" }, { type := "double" }] Swig_typemap_init
      = (-1, Swig_typemap_init) :=
  c8_copy_arity_mismatch modelUtils "in" [{ type := "int" }]
    [{ type := "int" }, { type := "double" }] Swig_typemap_init (by decide)

/-- C10: Swig_typemap_search_multi on an empty parameter list returns NULL
with nmatch set to 0, whatever the store, the fuel, and the incoming nmatch
value: the empty case returns before any scope is consulted. -/
theorem c10_search_multi_empty (u : TypeUtils) (fuel : Nat) (s : Store) (op : String)
    (nIn : Nat) :
    Swig_typemap_search_multi u fuel s op [] nIn = some (none, 0) := rfl

/-- C1 counterexample: registering a two-parameter rule stores the code only
under the last parameter with a suffixed key; the search on the first
parameter finds the code-less shell entry, so the returned entry's code is
not the registered string. -/
theorem c1_counterexample :
    Swig_typemap_search modelUtils 0
        (Swig_typemap_register_multi modelUtils "in"
          [{ type := "int", name := some "x" }, { type := "double", name := some "y" }]
          "C" [] [] Swig_typemap_init)
        "in" "int" (some "x")
      = some (some Entry.empty) ∧ Entry.empty.code ≠ some "C" := by
  exact ⟨by decide, by decide⟩

/-- C1 (amended): for a single-parameter rule whose name is absent or
non-empty, registering and then searching the same (op, type, name) in the
same scope returns an entry whose code is the registered string.  (For lists
of two or more parameters the code lives under the last parameter with a
signature-suffixed key, and the search on the first parameter finds only a
code-less shell.) -/
theorem c1_single_register_search (u : TypeUtils) (fuel : Nat) (s : Store)
    (op T c : String) (n : Option String) (L K : List Parm)
    (hok : s.tm_scope < s.typemaps.length) (hn : n ≠ some "") :
    ∃ e, Swig_typemap_search u fuel
        (Swig_typemap_register_multi u op [{ type := T, name := n }] c L K s) op T n
      = some (some e) ∧ e.code = some c := by
  refine ⟨fillEntry u op T n c L K ((entryAtTop s T n (tmop_name op)).getD Entry.empty),
    ?_, by simp [fillEntry]⟩
  cases n with
  | none =>
    have hreg : Swig_typemap_register_multi u op [{ type := T, name := none }] c L K s
        = updEntryTop s T none (tmop_name op) (fillEntry u op T none c L K) := rfl
    have hE := entryAtTop_upd_self s T none (tmop_name op) (fillEntry u op T none c L K) hok
    apply search_top_type_hit u fuel _ op T none _ rfl
    · rw [← entryAtTop_eq_readScope, hreg]
      exact hE
    · exact fillEntry_code_isSome _ _ _ _ _ _ _ _
  | some nm =>
    have hnm : ¬ nm = "" := fun he => hn (by rw [he])
    have hreg : Swig_typemap_register_multi u op [{ type := T, name := some nm }] c L K s
        = updEntryTop s T (some nm) (tmop_name op) (fillEntry u op T (some nm) c L K) := rfl
    have hE := entryAtTop_upd_self s T (some nm) (tmop_name op)
      (fillEntry u op T (some nm) c L K) hok
    apply search_top_name_hit u fuel _ op T nm _ hnm
    · rw [← entryAtTop_eq_readScope, hreg]
      exact hE
    · exact fillEntry_code_isSome _ _ _ _ _ _ _ _

/-- C1 witness: the amended claim at a concrete registration. -/
theorem c1_witness :
    ∃ e, Swig_typemap_search modelUtils 0
        (Swig_typemap_register_multi modelUtils "in" [{ type := "int", name := some "x" }]
          "C" [] [] Swig_typemap_init) "in" "int" (some "x")
      = some (some e) ∧ e.code = some "C" :=
  c1_single_register_search modelUtils 0 Swig_typemap_init "in" "int" "C" (some "x") [] []
    (by decide) (by decide)

/-- C2: when a rule on (T, name) and a rule on T alone are both registered in
the same (top) scope, in either order, the search for (op, T, name) returns
the entry registered under the name, recognizable by its pname and code
attributes. -/
theorem c2_name_beats_type (u : TypeUtils) (fuel : Nat) (s : Store)
    (op T nm c1 c2 : String) (L1 K1 L2 K2 : List Parm)
    (hok : s.tm_scope < s.typemaps.length) (hnm : ¬ nm = "") :
    (∃ e, Swig_typemap_search u fuel
        (Swig_typemap_register_multi u op [{ type := T, name := some nm }] c1 L1 K1
          (Swig_typemap_register_multi u op [{ type := T }] c2 L2 K2 s)) op T (some nm)
      = some (some e) ∧ e.code = some c1 ∧ e.pname = some nm) ∧
    (∃ e, Swig_typemap_search u fuel
        (Swig_typemap_register_multi u op [{ type := T }] c2 L2 K2
          (Swig_typemap_register_multi u op [{ type := T, name := some nm }] c1 L1 K1 s))
        op T (some nm)
      = some (some e) ∧ e.code = some c1 ∧ e.pname = some nm) := by
  constructor
  · have hreg1 : Swig_typemap_register_multi u op [{ type := T }] c2 L2 K2 s
        = updEntryTop s T none (tmop_name op) (fillEntry u op T none c2 L2 K2) := rfl
    have hok1 : (Swig_typemap_register_multi u op [{ type := T }] c2 L2 K2 s).tm_scope
        < (Swig_typemap_register_multi u op [{ type := T }] c2 L2 K2 s).typemaps.length := by
      rw [hreg1, tm_scope_updEntryTop, length_updEntryTop]
      exact hok
    have hreg2 : Swig_typemap_register_multi u op [{ type := T, name := some nm }] c1 L1 K1
          (Swig_typemap_register_multi u op [{ type := T }] c2 L2 K2 s)
        = updEntryTop (Swig_typemap_register_multi u op [{ type := T }] c2 L2 K2 s)
            T (some nm) (tmop_name op) (fillEntry u op T (some nm) c1 L1 K1) := rfl
    have hE := entryAtTop_upd_self
      (Swig_typemap_register_multi u op [{ type := T }] c2 L2 K2 s)
      T (some nm) (tmop_name op) (fillEntry u op T (some nm) c1 L1 K1) hok1
    refine ⟨fillEntry u op T (some nm) c1 L1 K1
        ((entryAtTop (Swig_typemap_register_multi u op [{ type := T }] c2 L2 K2 s)
          T (some nm) (tmop_name op)).getD Entry.empty),
      ?_, by simp [fillEntry], by simp [fillEntry]⟩
    apply search_top_name_hit u fuel _ op T nm _ hnm
    · rw [← entryAtTop_eq_readScope, hreg2]
      exact hE
    · exact fillEntry_code_isSome _ _ _ _ _ _ _ _
  · have hreg1 : Swig_typemap_register_multi u op [{ type := T, name := some nm }] c1 L1 K1 s
        = updEntryTop s T (some nm) (tmop_name op) (fillEntry u op T (some nm) c1 L1 K1) :=
      rfl
    have hreg2 : Swig_typemap_register_multi u op [{ type := T }] c2 L2 K2
          (Swig_typemap_register_multi u op [{ type := T, name := some nm }] c1 L1 K1 s)
        = updEntryTop
            (Swig_typemap_register_multi u op [{ type := T, name := some nm }] c1 L1 K1 s)
            T none (tmop_name op) (fillEntry u op T none c2 L2 K2) := rfl
    have hE1 := entryAtTop_upd_self s T (some nm) (tmop_name op)
      (fillEntry u op T (some nm) c1 L1 K1) hok
    have hE2 : entryAtTop (Swig_typemap_register_multi u op [{ type := T }] c2 L2 K2
          (Swig_typemap_register_multi u op [{ type := T, name := some nm }] c1 L1 K1 s))
          T (some nm) (tmop_name op)
        = some (fillEntry u op T (some nm) c1 L1 K1
            ((entryAtTop s T (some nm) (tmop_name op)).getD Entry.empty)) := by
      rw [hreg2]
      rw [entryAtTop_upd_ne _ _ _ _ _ _ _ _ (Or.inr (Or.inl (by simp)))]
      rw [hreg1]
      exact hE1
    refine ⟨fillEntry u op T (some nm) c1 L1 K1
        ((entryAtTop s T (some nm) (tmop_name op)).getD Entry.empty),
      ?_, by simp [fillEntry], by simp [fillEntry]⟩
    apply search_top_name_hit u fuel _ op T nm _ hnm
    · rw [← entryAtTop_eq_readScope]
      exact hE2
    · exact fillEntry_code_isSome _ _ _ _ _ _ _ _

/-- C2 witness: the specificity order at a concrete pair of rules. -/
theorem c2_witness :
    (∃ e, Swig_typemap_search modelUtils 0
        (Swig_typemap_register_multi modelUtils "in" [{ type := "int", name := some "x" }]
          "NAMED" [] []
          (Swig_typemap_register_multi modelUtils "in" [{ type := "int" }] "PLAIN" [] []
            Swig_typemap_init)) "in" "int" (some "x")
      = some (some e) ∧ e.code = some "NAMED" ∧ e.pname = some "x") ∧
    (∃ e, Swig_typemap_search modelUtils 0
        (Swig_typemap_register_multi modelUtils "in" [{ type := "int" }] "PLAIN" [] []
          (Swig_typemap_register_multi modelUtils "in" [{ type := "int", name := some "x" }]
            "NAMED" [] [] Swig_typemap_init)) "in" "int" (some "x")
      = some (some e) ∧ e.code = some "NAMED" ∧ e.pname = some "x") :=
  c2_name_beats_type modelUtils 0 Swig_typemap_init "in" "int" "x" "NAMED" "PLAIN"
    [] [] [] [] (by decide) (by decide)

theorem entryAtTop_of_empty_types (s : Store) (T : String) (n : Option String) (k : String)
    (h : (topScopeD s).types = []) : entryAtTop s T n k = none := by
  rw [entryAtTop_eq_readScope]
  unfold readScope
  rw [h]
  rfl

theorem scopeProbes_array_hit (sc : Scope) (tmop : String) (cname : Option String)
    (noarrays ctype : String) (backup : Option Entry) (e : Entry)
    (hp0 : probeName sc ctype cname tmop = none)
    (hp1 : probeType sc ctype tmop = none)
    (hp2 : probeName sc noarrays cname tmop = none)
    (hp : probeType sc noarrays tmop = some e) (hc : e.code.isSome = true) :
    scopeProbes sc tmop cname true noarrays ctype backup = Sum.inl e := by
  simp [scopeProbes, step, hp0, hp1, hp2, hp, hc]

/-- C3: a multi-argument rule on named parameters is stored under the last
parameter's (type, name) node with the signature-suffixed method key
tmap:op-T1+n1:-...-T(m-1)+n(m-1):, every earlier parameter carries only an
empty shell entry, and search_multi on the same parameter list returns the
stored entry with nmatch equal to the number of parameters.  The qualifier
stripping and typedef resolution of the external type library are modelled
from the spec as hypotheses (nothing to strip or resolve), and the top
scope starts with no types registered. -/
theorem c3_multiarg_storage_search (u : TypeUtils)
    (hstrip : ∀ t, u.strip_qualifiers t = t)
    (hres : ∀ t, u.typedef_resolve t = none)
    (parms : List Parm) (op code : String) (L K : List Parm) (s : Store)
    (hok : s.tm_scope < s.typemaps.length)
    (hnames : ∀ p ∈ parms, ∃ nm, p.name = some nm ∧ nm ≠ "")
    (htop : (topScopeD s).types = [])
    (hne : parms ≠ []) :
    ∃ last,
      parms.getLast? = some last ∧
      entryAtTop (Swig_typemap_register_multi u op parms code L K s) last.type last.name
          ("tmap:" ++ encodeOp op parms.dropLast)
        = some (fillEntry u (encodeOp op parms.dropLast) last.type last.name code L K
            Entry.empty) ∧
      (∀ pre p post, parms = pre ++ p :: post → post ≠ [] →
        entryAtTop (Swig_typemap_register_multi u op parms code L K s) p.type p.name
            ("tmap:" ++ encodeOp op pre) = some Entry.empty) ∧
      (∀ fuel nIn, Swig_typemap_search_multi u fuel
          (Swig_typemap_register_multi u op parms code L K s) op parms nIn
        = some (some (fillEntry u (encodeOp op parms.dropLast) last.type last.name code L K
            Entry.empty), parms.length)) := by
  refine register_multi_spec u hstrip hres parms op code L K s hok hnames ?_ hne
  intro pre p post hsplit
  exact entryAtTop_of_empty_types s p.type p.name _ htop

/-- C3 witness: the spec's own example, a two-parameter in rule on
(int, argc) and (char**, argv): search_multi finds the rule stored under the
key tmap:in-int+argc: with nmatch 2. -/
theorem c3_witness :
    Swig_typemap_search_multi modelUtils 0
        (Swig_typemap_register_multi modelUtils "in"
          [{ type := "int", name := some "argc" },
           { type := "p.p.char", name := some "argv" }]
          "CC" [] [] Swig_typemap_init) "in"
        [{ type := "int", name := some "argc" },
         { type := "p.p.char", name := some "argv" }] 0
      = some (some (fillEntry modelUtils "in-int+argc:" "p.p.char" (some "argv") "CC" [] []
          Entry.empty), 2) := by
  obtain ⟨last, hlast, _hcode, _hshell, hsm⟩ :=
    c3_multiarg_storage_search modelUtils (fun _ => rfl) (fun _ => rfl)
      [{ type := "int", name := some "argc" }, { type := "p.p.char", name := some "argv" }]
      "in" "CC" [] [] Swig_typemap_init (by decide)
      (by
        intro p hp
        rcases List.mem_cons.mp hp with h | hp2
        · exact ⟨"argc", by rw [h], by decide⟩
        · rcases List.mem_cons.mp hp2 with h | h
          · exact ⟨"argv", by rw [h], by decide⟩
          · exact absurd h (List.not_mem_nil p))
      rfl (by decide)
  have hl2 : last = { type := "p.p.char", name := some "argv" } := by
    have hg : ([{ type := "int", name := some "argc" },
        { type := "p.p.char", name := some "argv" }] : List Parm).getLast?
        = some { type := "p.p.char", name := some "argv" } := by decide
    rw [hg] at hlast
    exact (Option.some.inj hlast).symm
  rw [hl2] at hsm
  exact hsm 0 0

/-- C4: with the spec-modelled type utilities, when the only registered rule
is on the dimension-wildcard array type int[ANY] (no name), a search for
int[10] with no name returns that rule: the query type itself misses, and
the probe on the dimension-stripped form (every dimension replaced by the
literal ANY) hits the registered entry. -/
theorem c4_array_any_fallback (fuel : Nat) (op c : String) :
    ∃ e, Swig_typemap_search modelUtils fuel
        (Swig_typemap_register_multi modelUtils op [{ type := "int[ANY]" }] c [] []
          Swig_typemap_init) op "int[10]" none
      = some (some e) ∧ e.code = some c := by
  refine ⟨fillEntry modelUtils op "int[ANY]" none c [] [] Entry.empty, ?_,
    by simp [fillEntry]⟩
  have hreg : Swig_typemap_register_multi modelUtils op [{ type := "int[ANY]" }] c [] []
        Swig_typemap_init
      = updEntryTop Swig_typemap_init "int[ANY]" none (tmop_name op)
          (fillEntry modelUtils op "int[ANY]" none c [] []) := rfl
  rw [Swig_typemap_search, hreg]
  have hisar : modelUtils.isarray "int[10]" = true := by decide
  have hstrip : strip_arrays modelUtils "int[10]" = "int[ANY]" := by decide
  have hcn : cnameOf none = none := rfl
  rw [hisar, hstrip, hcn]
  apply searchScopes_found
  have htopeq : ((scopeAt (updEntryTop Swig_typemap_init "int[ANY]" none (tmop_name op)
        (fillEntry modelUtils op "int[ANY]" none c [] []))
        (updEntryTop Swig_typemap_init "int[ANY]" none (tmop_name op)
          (fillEntry modelUtils op "int[ANY]" none c [] [])).tm_scope).getD {})
      = topScopeD (updEntryTop Swig_typemap_init "int[ANY]" none (tmop_name op)
          (fillEntry modelUtils op "int[ANY]" none c [] [])) := rfl
  apply scopeProbes_array_hit
  · exact probeName_none _ _ _
  · rw [probeType_eq_readScope, htopeq, ← entryAtTop_eq_readScope,
      entryAtTop_upd_ne _ _ _ _ _ _ _ _ (Or.inl (by decide))]
    rfl
  · exact probeName_none _ _ _
  · rw [probeType_eq_readScope, htopeq, ← entryAtTop_eq_readScope,
      entryAtTop_upd_self _ _ _ _ _ (by decide)]
    rfl
  · exact fillEntry_code_isSome _ _ _ _ _ _ _ _

/-- C9 counterexample: a template holding both the bare and the indexed
descriptor variable has the type remembered once per replaced variable, so
the remember callback runs twice on the same type, not exactly once. -/
theorem c9_counterexample :
    (typemap_replace_vars modelUtils ("$descriptor $1_descriptor".data) [] "p.Foo"
        (some "f") "arg1" 1).rems = ["p.Foo", "p.Foo"] := by decide

/-- C9 (amended): substituting a template a ++ $descriptor ++ b whose
surrounding text holds no other dollar character, at index 1 on type T with
the spec-modelled type utilities, yields a ++ SWIGTYPE ++ mangle(T) ++ b
and remembers T exactly once; a template with no dollar character at all
triggers no remember.  (A template holding several descriptor variables
remembers the type once per replaced variable.) -/
theorem c9_descriptor_subst (T pn ln : String) (a b : List Char)
    (ha : '$' ∉ a) (hb : '$' ∉ b) :
    typemap_replace_vars modelUtils (a ++ "$descriptor".data ++ b) [] T (some pn) ln 1
      = ⟨a ++ ("SWIGTYPE".data ++ (modelUtils.manglestr T).data) ++ b, [], [T]⟩ ∧
    (∀ s, '$' ∉ s →
      (typemap_replace_vars modelUtils s [] T (some pn) ln 1).rems = []) := by
  constructor
  · rw [show (a ++ "$descriptor".data ++ b : List Char)
        = a ++ '$' :: ("descriptor".data ++ b) from by rw [List.append_assoc]; rfl]
    exact replace_vars_descriptor T pn ln a b ha hb
  · intro s hs
    rw [replace_vars_no_dollar T pn ln s hs]

/-- C9 witness: the spec's example, a template on the pointer type Foo*:
the substituted text holds SWIGTYPE_p_Foo and the type is remembered once. -/
theorem c9_witness :
    typemap_replace_vars modelUtils ("x = ".data ++ "$descriptor".data ++ ";".data) []
        "p.Foo" (some "f") "arg1" 1
      = ⟨"x = SWIGTYPE_p_Foo;".data, [], ["p.Foo"]⟩ := by
  rw [(c9_descriptor_subst "p.Foo" "f" "arg1" "x = ".data ";".data (by decide)
    (by decide)).1]
  decide
